import Mathlib

/-!
Verification of the gzip codec in `src/gzip.ts` of the 1paying-kit repository.

Byte buffers (`Uint8Array`) are embedded as `List Nat` together with the
predicate `Bytes` stating every element is below 256.  JavaScript bitwise
operators coerce their operands to 32-bit integers; every place where such a
coercion can matter carries an explicit `% 4294967296` (= 2^32), and the one
place where the *signed* reinterpretation is observable (the final
`inflated.length & 0xffffffff` comparison of `gzipDecompress`) uses `toInt32`.
JavaScript `Map`s and typed arrays used as mutable stores are embedded as
functions updated pointwise; the `-1` sentinel of the hash chains is embedded
as `Option Nat`.  Fallible code returns `Except String`, carrying the exact
`Error` message thrown by the source.
-/

namespace Gzip

/-- Every element of the buffer is a byte value. -/
def Bytes (l : List Nat) : Prop := ∀ b ∈ l, b < 256

instance (l : List Nat) : Decidable (Bytes l) :=
  inferInstanceAs (Decidable (∀ b ∈ l, b < 256))

/-- JavaScript `ToInt32`: reinterpret the low 32 bits of a number as a signed
32-bit integer. -/
def toInt32 (n : Nat) : Int :=
  if n % 4294967296 < 2147483648 then (n % 4294967296 : Nat)
  else (n % 4294967296 : Int) - 4294967296

def GZIP_ID1 : Nat := 0x1f
def GZIP_ID2 : Nat := 0x8b
def GZIP_CM_DEFLATE : Nat := 8

def WINDOW_SIZE : Nat := 32768
def MAX_MATCH : Nat := 258
def MIN_MATCH : Nat := 3
def MAX_CHAIN_HITS : Nat := 128

def LENGTH_BASE : List Nat :=
  [3, 4, 5, 6, 7, 8, 9, 10] ++ [11, 13, 15, 17, 19, 23, 27, 31] ++
    [35, 43, 51, 59, 67, 83, 99, 115] ++ [131, 163, 195, 227, 258]

def LENGTH_EXTRA : List Nat :=
  [0, 0, 0, 0, 0, 0, 0, 0] ++ [1, 1, 1, 1, 2, 2, 2, 2] ++
    [3, 3, 3, 3, 4, 4, 4, 4] ++ [5, 5, 5, 5, 0]

def DIST_BASE : List Nat :=
  [1, 2, 3, 4, 5, 7, 9, 13] ++ [17, 25, 33, 49, 65, 97, 129, 193] ++
    [257, 385, 513, 769, 1025, 1537, 2049, 3073] ++
    [4097, 6145, 8193, 12289, 16385, 24577]

def DIST_EXTRA : List Nat :=
  [0, 0, 0, 0, 1, 1, 2, 2] ++ [3, 3, 4, 4, 5, 5, 6, 6] ++
    [7, 7, 8, 8, 9, 9, 10, 10] ++ [11, 11, 12, 12, 13, 13]

/-- The JavaScript expression `(1 << n) - 1`: the shift count is taken mod 32
and the shifted value lives in 32 bits.  (For `n = 31` the JS value is the
negative double `-2147483649`, whose `ToInt32` image — the only way the mask
is consumed — is `2^31 - 1`, which is what this returns.) -/
def jsMask (n : Nat) : Nat := ((1 <<< (n % 32)) % 4294967296) - 1

/-- LZ77 token: a literal byte or a length/distance match. -/
inductive Token
  | literal (value : Nat)
  | matchTok (length : Nat) (distance : Nat)
deriving DecidableEq, Repr

/-- State of the bit writer of `gzip.ts` (`class BitWriter`). -/
structure BitWriter where
  byteBuffer : List Nat
  bitBuffer : Nat
  bitLength : Nat
deriving Repr

namespace BitWriter

def empty : BitWriter := ⟨[], 0, 0⟩

/-- The `while (this.bitLength >= 8)` flush loop of `writeBits`, with a
structural iteration budget.  One iteration removes 8 buffered bits, so a
budget of `w.bitLength` always covers the loop. -/
def flushGo : Nat → BitWriter → BitWriter
  | 0, w => w
  | fuel + 1, w =>
    if 8 ≤ w.bitLength then
      flushGo fuel ⟨w.byteBuffer ++ [w.bitBuffer &&& 0xff], w.bitBuffer >>> 8, w.bitLength - 8⟩
    else w

/-- The flush loop with its always-sufficient budget. -/
def flush (w : BitWriter) : BitWriter := flushGo w.bitLength w

/-- `BitWriter.writeBits` of the source. -/
def writeBits (w : BitWriter) (value length : Nat) : BitWriter :=
  if length = 0 then w
  else
    let mask := jsMask length
    flush ⟨w.byteBuffer,
           (w.bitBuffer ||| ((value &&& mask) <<< w.bitLength)) % 4294967296,
           w.bitLength + length⟩

/-- `BitWriter.alignToByte` of the source. -/
def alignToByte (w : BitWriter) : BitWriter :=
  if 0 < w.bitLength then ⟨w.byteBuffer ++ [w.bitBuffer &&& 0xff], 0, 0⟩ else w

/-- `BitWriter.toUint8Array` of the source. -/
def toUint8Array (w : BitWriter) : List Nat := w.alignToByte.byteBuffer

end BitWriter

/-- State of the bit reader of `gzip.ts` (`class BitReader`). -/
structure BitReader where
  bytes : List Nat
  bitBuffer : Nat
  bitLength : Nat
  offset : Nat
deriving Repr

namespace BitReader

def ofBytes (bytes : List Nat) : BitReader := ⟨bytes, 0, 0, 0⟩

/-- The `while (this.bitLength < n)` loop of `ensureBits`, with a structural
iteration budget.  One iteration adds 8 buffered bits, so the loop runs at
most `n` times; at budget 0 the loop guard is necessarily false and the
fall-through `.ok` is returned. -/
def ensureBitsGo (n : Nat) : Nat → BitReader → Except String BitReader
  | 0, r => .ok r
  | fuel + 1, r =>
    if r.bitLength < n then
      if r.bytes.length ≤ r.offset then .error "Unexpected end of stream"
      else
        ensureBitsGo n fuel
          ⟨r.bytes,
           (r.bitBuffer ||| ((r.bytes.getD r.offset 0) <<< (r.bitLength % 32))) % 4294967296,
           r.bitLength + 8, r.offset + 1⟩
    else .ok r

/-- `BitReader.ensureBits`: pull input bytes into the accumulator until at
least `n` bits are buffered. -/
def ensureBits (r : BitReader) (n : Nat) : Except String BitReader :=
  ensureBitsGo n (n + 1) r

/-- `BitReader.readBits` of the source. -/
def readBits (r : BitReader) (n : Nat) : Except String (Nat × BitReader) := do
  let r' ← r.ensureBits n
  let value := r'.bitBuffer &&& jsMask n
  .ok (value, ⟨r'.bytes, r'.bitBuffer >>> (n % 32), r'.bitLength - n, r'.offset⟩)

/-- `BitReader.peekBits` of the source.  The returned reader reflects that
`ensureBits` may pull further whole bytes into the accumulator; the cursor
(bits consumed) does not move. -/
def peekBits (r : BitReader) (n : Nat) : Except String (Nat × BitReader) := do
  let r' ← r.ensureBits n
  .ok (r'.bitBuffer &&& jsMask n, r')

/-- `BitReader.alignToByte` of the source. -/
def alignToByte (r : BitReader) : BitReader := ⟨r.bytes, 0, 0, r.offset⟩

/-- `BitReader.readByte` of the source. -/
def readByte (r : BitReader) : Except String (Nat × BitReader) := r.readBits 8

/-- Total number of bits consumed from the input (the abstract cursor:
`8 * offset` input bits pulled, minus the `bitLength` bits still buffered). -/
def cursor (r : BitReader) : Nat := 8 * r.offset - r.bitLength

end BitReader

/-- One entry of the precomputed CRC32 table (`crcTable` of the source):
eight conditional-xor folding steps applied to the byte index. -/
def crcTableEntry (i : Nat) : Nat :=
  (List.range 8).foldl
    (fun c _ => if c &&& 1 ≠ 0 then 0xedb88320 ^^^ (c >>> 1) else c >>> 1) i

/-- `crc32` of the source. -/
def crc32 (data : List Nat) : Nat :=
  (data.foldl
      (fun crc byte => crcTableEntry ((crc ^^^ byte) &&& 0xff) ^^^ (crc >>> 8))
      0xffffffff) ^^^ 0xffffffff

/-- `reverseBits` of the source. -/
def reverseBits (value width : Nat) : Nat :=
  ((List.range width).foldl
      (fun (p : Nat × Nat) _ => ((p.1 <<< 1) ||| (p.2 &&& 1), p.2 >>> 1))
      (0, value)).1

def FIXED_LITERAL_MAX_BITS : Nat := 9
def FIXED_LITERAL_SHORT_BITS : Nat := 7

/-- The canonical fixed literal/length code of a symbol, bit-reversed for
LSB-first emission (`fixedLiteralCodes` as filled by `buildFixedTables`). -/
def fixedLiteralCodes (sym : Nat) : Nat :=
  if sym ≤ 143 then reverseBits (0x30 + sym) 8
  else if sym ≤ 255 then reverseBits (0x190 + (sym - 144)) 9
  else if sym ≤ 279 then reverseBits (sym - 256) 7
  else if sym ≤ 287 then reverseBits (0xc0 + (sym - 280)) 8
  else 0

/-- Code length in bits of a fixed literal/length symbol
(`fixedLiteralLengths` as filled by `buildFixedTables`). -/
def fixedLiteralLengths (sym : Nat) : Nat :=
  if sym ≤ 143 then 8
  else if sym ≤ 255 then 9
  else if sym ≤ 279 then 7
  else if sym ≤ 287 then 8
  else 0

/-- `fixedDistanceCodes` of the source: distance symbol `i` gets the 5-bit
code `reverseBits i 5`. -/
def fixedDistanceCodes (i : Nat) : Nat := reverseBits i 5

/-- Slot `index` of the flat 9-bit literal/length decode table
(`fixedLiteralDecode`).  `buildFixedTables` writes symbol `sym` into every
slot `codeVal | (i << len)` with `i < 2^(9-len)`; since `codeVal < 2^len`
those are exactly the slots below 512 whose low `len` bits equal `codeVal`.
The fold performs the writes in the source's symbol order, the last write
winning, over the zero-initialised `Int16Array`. -/
def fixedLiteralDecode (index : Nat) : Int :=
  (List.range 288).foldl
    (fun acc sym =>
      if index < 512 ∧ index % (1 <<< fixedLiteralLengths sym) = fixedLiteralCodes sym
      then (sym : Int) else acc) 0

/-- Slot `index` of `fixedLiteralDecodeLength` (zero-initialised). -/
def fixedLiteralDecodeLength (index : Nat) : Nat :=
  (List.range 288).foldl
    (fun acc sym =>
      if index < 512 ∧ index % (1 <<< fixedLiteralLengths sym) = fixedLiteralCodes sym
      then fixedLiteralLengths sym else acc) 0

/-- Slot `index` of the short (7-bit) literal/length decode table
(`fixedLiteralShortDecode`, initialised to `-1`); only symbols whose code
length is at most 7 bits are written. -/
def fixedLiteralShortDecode (index : Nat) : Int :=
  (List.range 288).foldl
    (fun acc sym =>
      if fixedLiteralLengths sym ≤ 7 ∧ index < 128 ∧
         index % (1 <<< fixedLiteralLengths sym) = fixedLiteralCodes sym
      then (sym : Int) else acc) (-1)

/-- Slot `index` of `fixedLiteralShortLength` (initialised to 0). -/
def fixedLiteralShortLength (index : Nat) : Nat :=
  (List.range 288).foldl
    (fun acc sym =>
      if fixedLiteralLengths sym ≤ 7 ∧ index < 128 ∧
         index % (1 <<< fixedLiteralLengths sym) = fixedLiteralCodes sym
      then fixedLiteralLengths sym else acc) 0

/-- Slot `index` of `fixedDistanceDecode` (zero-initialised): the build loop
writes `i` into slot `reverseBits i 5` for every `i < 32`. -/
def fixedDistanceDecode (index : Nat) : Int :=
  (List.range 32).foldl (fun acc i => if reverseBits i 5 = index then (i : Int) else acc) 0

/-- Slot `index` of `fixedDistanceDecodeLength` (zero-initialised): every
written slot gets length 5. -/
def fixedDistanceDecodeLength (index : Nat) : Nat :=
  (List.range 32).foldl (fun acc i => if reverseBits i 5 = index then 5 else acc) 0

/-- Result record of `findLengthCode` / `findDistanceCode`. -/
structure CodeInfo where
  code : Nat
  base : Nat
  extraBits : Nat
deriving DecidableEq, Repr

/-- The scan loop shared by `findLengthCode` and `findDistanceCode`: walk the
`(base, extra)` table rows in order, starting at row index `i`, returning the
first row whose interval `[base, base + 2^extra - 1]` contains `value`;
`codeOfs` is the code number of row 0 (257 for length codes, 0 for distance
codes) and `msg` the error thrown when the scan falls off the table. -/
def findCodeScan (msg : String) (codeOfs value : Nat) :
    Nat → List (Nat × Nat) → Except String CodeInfo
  | _, [] => .error msg
  | i, p :: rest =>
    let mx := p.1 + (1 <<< p.2) - 1
    if p.1 ≤ value ∧ value ≤ mx then .ok ⟨codeOfs + i, p.1, p.2⟩
    else findCodeScan msg codeOfs value (i + 1) rest

/-- `findLengthCode` of the source: the scan covers rows
`0 .. LENGTH_BASE.length - 2`. -/
def findLengthCode (length : Nat) : Except String CodeInfo :=
  if length = 258 then .ok ⟨285, 258, 0⟩
  else
    findCodeScan "Invalid match length" 257 length 0
      ((LENGTH_BASE.zip LENGTH_EXTRA).take (LENGTH_BASE.length - 1))

/-- `findDistanceCode` of the source: the scan covers all 30 rows. -/
def findDistanceCode (distance : Nat) : Except String CodeInfo :=
  findCodeScan "Invalid match distance" 0 distance 0 (DIST_BASE.zip DIST_EXTRA)

/-! ## LZ77 tokenizer (`collectTokens`)

The JavaScript `Map` `head` and the `-1`-filled `Int32Array` `prev` are
embedded as functions `Nat → Option Nat` updated pointwise (`none` is the
`-1` / absent sentinel). -/

/-- Mutable state of `collectTokens`: the per-key most recent position and the
per-position previous position with the same key. -/
structure LZState where
  head : Nat → Option Nat
  prev : Nat → Option Nat

def LZState.empty : LZState := ⟨fun _ => none, fun _ => none⟩

/-- The 3-byte key of `computeKey` in the source. -/
def computeKey (data : List Nat) (position : Nat) : Nat :=
  ((data.getD position 0) <<< 16) ||| ((data.getD (position + 1) 0) <<< 8) |||
    (data.getD (position + 2) 0)

/-- The chain-chasing loop of `pruneHead`: follow `prev` while the node is
more than `WINDOW_SIZE` behind `position`.  The chain strictly decreases on
every state the tokenizer builds (`prev p < p`), so a fuel of `position + 1`
never runs out; the fuel-exhausted branch returns the current node. -/
def pruneChase (prev : Nat → Option Nat) (position : Nat) :
    Nat → Option Nat → Option Nat
  | _, none => none
  | 0, some node => some node
  | fuel + 1, some node =>
    if position - node > WINDOW_SIZE then pruneChase prev position fuel (prev node)
    else some node

/-- `pruneHead` of the source: drop chain entries that fell out of the
window, then update (or delete) the `head` entry for `key`. -/
def pruneHead (st : LZState) (key position : Nat) : Option Nat × LZState :=
  match pruneChase st.prev position (position + 1) (st.head key) with
  | none => (none, { st with head := fun k => if k = key then none else st.head k })
  | some n => (some n, { st with head := fun k => if k = key then some n else st.head k })

/-- `insertPosition` of the source. -/
def insertPosition (data : List Nat) (hashableLimit : Int) (st : LZState)
    (position : Nat) : LZState :=
  if (position : Int) ≥ hashableLimit then st
  else
    let key := computeKey data position
    let res := pruneHead st key position
    { head := fun k => if k = key then some position else res.2.head k,
      prev := fun p => if p = position then res.1 else res.2.prev p }

/-- The byte-by-byte match extension loop of `findBestMatch`
(`while (length < maxMatch && data[position+length] === data[candidate+length])`),
structural on `maxMatch - length`: the budget is 0 exactly when
`length < maxMatch` fails. -/
def extendMatchGo (data : List Nat) (position candidate : Nat) : Nat → Nat → Nat
  | 0, length => length
  | fuel + 1, length =>
    if data.getD (position + length) 0 = data.getD (candidate + length) 0
    then extendMatchGo data position candidate fuel (length + 1)
    else length

/-- `extendMatch`: run the extension loop from `length` up to `maxMatch`. -/
def extendMatch (data : List Nat) (position candidate maxMatch : Nat)
    (length : Nat) : Nat :=
  extendMatchGo data position candidate (maxMatch - length) length

/-- The candidate-walking loop of `findBestMatch`.  `attemptsLeft` counts the
remaining iterations of the `attempts < MAX_CHAIN_HITS` budget. -/
def walkChain (data : List Nat) (dataLength position maxMatch : Nat)
    (prev : Nat → Option Nat) :
    Option Nat → Nat → Nat → Nat → Nat × Nat
  | none, _, bestL, bestD => (bestL, bestD)
  | some _, 0, bestL, bestD => (bestL, bestD)
  | some candidate, attemptsLeft + 1, bestL, bestD =>
    let distance := position - candidate
    if distance > WINDOW_SIZE then (bestL, bestD)
    else if bestL ≥ MIN_MATCH ∧
        (position + bestL ≥ dataLength ∨
         data.getD (position + bestL) 0 ≠ data.getD (candidate + bestL) 0) then
      walkChain data dataLength position maxMatch prev (prev candidate) attemptsLeft bestL bestD
    else
      let length := extendMatch data position candidate maxMatch MIN_MATCH
      if length > bestL then
        if length ≥ MAX_MATCH then (length, distance)
        else walkChain data dataLength position maxMatch prev (prev candidate) attemptsLeft
          length distance
      else
        walkChain data dataLength position maxMatch prev (prev candidate) attemptsLeft
          bestL bestD

/-- `findBestMatch` of the source.  Returns the best match together with the
state as mutated by its `pruneHead` call. -/
def findBestMatch (data : List Nat) (dataLength : Nat) (hashableLimit : Int)
    (st : LZState) (position : Nat) : (Nat × Nat) × LZState :=
  if (position : Int) ≥ hashableLimit then ((0, 0), st)
  else
    let key := computeKey data position
    let res := pruneHead st key position
    let maxMatch := min MAX_MATCH (dataLength - position)
    let best := walkChain data dataLength position maxMatch res.2.prev res.1
      MAX_CHAIN_HITS 0 0
    if best.1 < MIN_MATCH then ((0, 0), res.2) else (best, res.2)

/-- `for (let i = 0; i < bestLength; i += 1) insertPosition(position + i)`. -/
def insertRange (data : List Nat) (hashableLimit : Int) (st : LZState)
    (position : Nat) : Nat → LZState
  | 0 => st
  | n + 1 =>
    insertRange data hashableLimit (insertPosition data hashableLimit st position)
      (position + 1) n

/-- The main `while (position < dataLength)` loop of `collectTokens`,
including the lazy-matching heuristic; structural on an iteration budget.
Every iteration advances `position` by at least one, so a budget of
`dataLength` (supplied by `collectTokens`) always covers the loop. -/
def collectLoop (data : List Nat) (dataLength : Nat) (hashableLimit : Int) :
    Nat → LZState → Nat → List Token
  | 0, _, _ => []
  | fuel + 1, st, position =>
    if position < dataLength then
      let bm := findBestMatch data dataLength hashableLimit st position
      if bm.1.1 ≥ MIN_MATCH then
        -- lazy matching: peek at position + 1; `useMatch` is resolved per path
        if bm.1.1 < MAX_MATCH ∧ position + 1 < dataLength then
          let nm := findBestMatch data dataLength hashableLimit bm.2 (position + 1)
          if nm.1.1 > bm.1.1 then
            Token.literal (data.getD position 0) ::
              collectLoop data dataLength hashableLimit fuel
                (insertPosition data hashableLimit nm.2 position) (position + 1)
          else
            Token.matchTok bm.1.1 bm.1.2 ::
              collectLoop data dataLength hashableLimit fuel
                (insertRange data hashableLimit nm.2 position bm.1.1)
                (position + bm.1.1)
        else
          Token.matchTok bm.1.1 bm.1.2 ::
            collectLoop data dataLength hashableLimit fuel
              (insertRange data hashableLimit bm.2 position bm.1.1)
              (position + bm.1.1)
      else
        Token.literal (data.getD position 0) ::
          collectLoop data dataLength hashableLimit fuel
            (insertPosition data hashableLimit bm.2 position) (position + 1)
    else []

/-- `collectTokens` of the source. -/
def collectTokens (data : List Nat) : List Token :=
  if data.length = 0 then []
  else
    collectLoop data data.length ((data.length : Int) - ((MIN_MATCH : Int) - 1))
      data.length LZState.empty 0

/-! ## Fixed-Huffman block encoding (`deflateFixed`) -/

/-- Encode one token into the bit writer (the loop body of `deflateFixed`). -/
def writeToken (w : BitWriter) : Token → Except String BitWriter
  | .literal v => .ok (w.writeBits (fixedLiteralCodes v) (fixedLiteralLengths v))
  | .matchTok len dist => do
    let info ← findLengthCode len
    let w := w.writeBits (fixedLiteralCodes info.code) (fixedLiteralLengths info.code)
    let w := if info.extraBits > 0 then w.writeBits (len - info.base) info.extraBits else w
    let distInfo ← findDistanceCode dist
    let w := w.writeBits (fixedDistanceCodes distInfo.code) 5
    let w := if distInfo.extraBits > 0 then
        w.writeBits (dist - distInfo.base) distInfo.extraBits
      else w
    .ok w

/-- Encode a token list (`for (const token of tokens)`). -/
def writeTokens (w : BitWriter) : List Token → Except String BitWriter
  | [] => .ok w
  | t :: ts => do writeTokens (← writeToken w t) ts

/-- `deflateFixed` of the source. -/
def deflateFixed (data : List Nat) : Except String (List Nat) := do
  let tokens := collectTokens data
  let w := BitWriter.empty
  let w := w.writeBits 1 1
  let w := w.writeBits 1 2
  let w ← writeTokens w tokens
  let w := w.writeBits (fixedLiteralCodes 256) (fixedLiteralLengths 256)
  let w := w.alignToByte
  .ok w.toUint8Array

/-! ## Fixed-Huffman block decoding (`inflateFixed`) -/

/-- `readFixedLiteral` of the source. -/
def readFixedLiteral (r : BitReader) : Except String (Nat × BitReader) := do
  let p ← r.peekBits FIXED_LITERAL_SHORT_BITS
  let shortLen := fixedLiteralShortLength p.1
  if shortLen ≠ 0 then
    let symbol := fixedLiteralShortDecode p.1
    let q ← p.2.readBits shortLen
    .ok (symbol.toNat, q.2)
  else
    let p2 ← p.2.peekBits FIXED_LITERAL_MAX_BITS
    let symbol := fixedLiteralDecode p2.1
    let len := fixedLiteralDecodeLength p2.1
    if symbol < 0 ∨ len = 0 then .error "Failed to decode literal/length symbol"
    else
      let q ← p2.2.readBits len
      .ok (symbol.toNat, q.2)

/-- The conditional extra-bits read `extra > 0 ? reader.readBits(extra) : 0`
used for both length and distance codes in `inflateFixed`. -/
def readExtra (r : BitReader) (n : Nat) : Except String (Nat × BitReader) :=
  if n > 0 then r.readBits n else .ok (0, r)

/-- `readFixedDistance` of the source. -/
def readFixedDistance (r : BitReader) : Except String (Nat × BitReader) := do
  let p ← r.peekBits 5
  let symbol := fixedDistanceDecode p.1
  let len := fixedDistanceDecodeLength p.1
  if symbol < 0 ∨ len = 0 then .error "Failed to decode distance symbol"
  else
    let q ← p.2.readBits len
    .ok (symbol.toNat, q.2)

/-- The `for (let i = 0; i < matchLength; i += 1) out.push(out[start + i])`
copy of a back-reference, structural on the `len - i` remaining iterations;
`start` is fixed before the loop, so an overlapping copy re-reads bytes
pushed by earlier iterations. -/
def matchCopyGo (start : Nat) : Nat → List Nat → Nat → List Nat
  | 0, out, _ => out
  | fuel + 1, out, i => matchCopyGo start fuel (out ++ [out.getD (start + i) 0]) (i + 1)

/-- The back-reference copy loop from index `i` up to `len`. -/
def matchCopy (out : List Nat) (start i len : Nat) : List Nat :=
  matchCopyGo start (len - i) out i

/-- The `for (let i = 0; i < len; i += 1) out.push(reader.readByte())` loop of
a stored block. -/
def readStored (r : BitReader) (out : List Nat) : Nat → Except String (List Nat × BitReader)
  | 0 => .ok (out, r)
  | n + 1 => do
    let b ← r.readByte
    readStored b.2 (out ++ [b.1]) n

/-- The inner symbol loop of a fixed-Huffman block (`while (true)` in
`inflateFixed`).  `fuel` bounds the number of iterations; every iteration
consumes at least 7 bits, so the fuel chosen by `inflateFixed` cannot run out
before the bit reader itself fails. -/
def inflateItems (data : List Nat) : Nat → BitReader → List Nat →
    Except String (List Nat × BitReader)
  | 0, _, _ => .error "out of fuel"
  | fuel + 1, r, out => do
    let s ← readFixedLiteral r
    if s.1 < 256 then inflateItems data fuel s.2 (out ++ [s.1])
    else if s.1 = 256 then .ok (out, s.2)
    else
      let lengthInfo := s.1 - 257
      if lengthInfo ≥ LENGTH_BASE.length then .error "Invalid length symbol"
      else
        let baseLen := LENGTH_BASE.getD lengthInfo 0
        let extraLen := LENGTH_EXTRA.getD lengthInfo 0
        let e ← readExtra s.2 extraLen
        let matchLength := baseLen + e.1
        let d ← readFixedDistance e.2
        let baseDist := DIST_BASE.getD d.1 0
        let extraDist := DIST_EXTRA.getD d.1 0
        let e2 ← readExtra d.2 extraDist
        let distance := baseDist + e2.1
        if out.length < distance then .error "Invalid match distance"
        else inflateItems data fuel e2.2 (matchCopy out (out.length - distance) 0 matchLength)

/-- The outer `while (!done)` block loop of `inflateFixed`. -/
def inflateBlocks (data : List Nat) : Nat → BitReader → List Nat →
    Except String (List Nat)
  | 0, _, _ => .error "out of fuel"
  | fuel + 1, r, out => do
    let f ← r.readBits 1
    let isFinal := f.1 = 1
    let t ← f.2.readBits 2
    let step ←
      if t.1 = 0 then do
        let r2 := t.2.alignToByte
        let l1 ← r2.readByte
        let l2 ← l1.2.readByte
        let len := l1.1 ||| (l2.1 <<< 8)
        let n1 ← l2.2.readByte
        let n2 ← n1.2.readByte
        let nlen := n1.1 ||| (n2.1 <<< 8)
        if (len ^^^ 0xffff) ≠ nlen then Except.error "Stored block length mismatch"
        else readStored n2.2 out len
      else if t.1 = 1 then
        inflateItems data (8 * data.length + 8) t.2 out
      else Except.error "Unsupported DEFLATE block type"
    if isFinal then .ok step.1 else inflateBlocks data fuel step.2 step.1

/-- `inflateFixed` of the source.  Every block-loop iteration consumes at
least 3 bits of input, so `8 * data.length + 8` iterations cannot be reached
before the bit reader fails on exhausted input. -/
def inflateFixed (data : List Nat) : Except String (List Nat) :=
  inflateBlocks data (8 * data.length + 8) (BitReader.ofBytes data) []

/-! ## Gzip container framing -/

/-- `readUint32LE` of the source (the `>>> 0` makes the result unsigned). -/
def readUint32LE (bytes : List Nat) (offset : Nat) : Nat :=
  ((bytes.getD offset 0) ||| ((bytes.getD (offset + 1) 0) <<< 8) |||
      ((bytes.getD (offset + 2) 0) <<< 16) ||| ((bytes.getD (offset + 3) 0) <<< 24)) %
    4294967296

/-- The four bytes stored by `writeUint32LE`. -/
def uint32LEBytes (value : Nat) : List Nat :=
  [value &&& 0xff, (value >>> 8) &&& 0xff, (value >>> 16) &&& 0xff, (value >>> 24) &&& 0xff]

/-- The fixed 10-byte header written by `gzipCompress`. -/
def gzipHeader : List Nat := [0x1f, 0x8b, 0x08, 0, 0, 0, 0, 0, 0, 0xff]

/-- `gzipCompress` of the source.  The preallocated `Uint8Array` is tiled
exactly by the header (offset 0), the deflate payload (offset 10) and the two
footer words (offsets `length - 8` and `length - 4`), so the result is their
concatenation; `data.length >>> 0` is the length modulo 2^32. -/
def gzipCompress (data : List Nat) : Except String (List Nat) := do
  let deflated ← deflateFixed data
  let crc := crc32 data
  .ok (gzipHeader ++ deflated ++ uint32LEBytes crc ++
    uint32LEBytes (data.length % 4294967296))

/-- The `while (offset < data.length && data[offset] !== 0)` scan used to skip
the NUL-terminated FNAME / FCOMMENT fields, structural on an iteration
budget; the scan advances `offset` every iteration, so a budget of
`data.length` always covers it. -/
def skipZeroGo (data : List Nat) : Nat → Nat → Nat
  | 0, offset => offset
  | fuel + 1, offset =>
    if offset < data.length then
      if data.getD offset 0 ≠ 0 then skipZeroGo data fuel (offset + 1) else offset
    else offset

/-- The NUL scan with its always-sufficient budget. -/
def skipZeroTerminated (data : List Nat) (offset : Nat) : Nat :=
  skipZeroGo data data.length offset

/-- Header-field skipping of `gzipDecompress`: returns the offset of the
DEFLATE payload, or the error thrown while parsing the optional fields. -/
def gzipPayloadOffset (data : List Nat) : Except String Nat := do
  let flags := data.getD 3 0
  let offset := 10
  let offset ←
    if flags &&& 0x04 ≠ 0 then
      if offset + 2 > data.length then Except.error "Invalid gzip extra field length"
      else
        let xlen := (data.getD offset 0) ||| ((data.getD (offset + 1) 0) <<< 8)
        Except.ok (offset + 2 + xlen)
    else Except.ok offset
  let offset := if flags &&& 0x08 ≠ 0 then skipZeroTerminated data offset + 1 else offset
  let offset := if flags &&& 0x10 ≠ 0 then skipZeroTerminated data offset + 1 else offset
  let offset := if flags &&& 0x02 ≠ 0 then offset + 2 else offset
  .ok offset

/-- `gzipDecompress` of the source.  JavaScript's `&` coerces its operands to
signed 32-bit integers and `0xffffffff` is `-1` as an `Int32`, so the size
comparison tests the *signed* reinterpretation of the low 32 bits of
`inflated.length` against the unsigned footer word. -/
def gzipDecompress (data : List Nat) : Except String (List Nat) := do
  if data.length < 18 then Except.error "Invalid gzip data"
  else if data.getD 0 0 ≠ GZIP_ID1 ∨ data.getD 1 0 ≠ GZIP_ID2 ∨
      data.getD 2 0 ≠ GZIP_CM_DEFLATE then
    Except.error "Unsupported gzip header"
  else do
    let offset ← gzipPayloadOffset data
    if offset > data.length - 8 then Except.error "Incomplete gzip payload"
    else do
      let payload := (data.drop offset).take (data.length - 8 - offset)
      let inflated ← inflateFixed payload
      let expectedCrc := readUint32LE data (data.length - 8)
      let expectedSize := readUint32LE data (data.length - 4)
      if crc32 inflated ≠ expectedCrc then Except.error "CRC32 mismatch"
      else if toInt32 inflated.length ≠ (expectedSize : Int) then
        Except.error "Size mismatch"
      else .ok inflated

/-- `isGzip` of the source. -/
def isGzip (data : List Nat) : Bool :=
  decide (3 < data.length) && decide (data.getD 0 0 = GZIP_ID1) &&
    decide (data.getD 1 0 = GZIP_ID2) && decide (data.getD 2 0 = GZIP_CM_DEFLATE)

end Gzip

/-! # Verification -/

namespace Gzip

@[simp] theorem except_bind_ok {α β ε : Type} (a : α) (f : α → Except ε β) :
    (Except.ok a >>= f) = f a := rfl

@[simp] theorem except_bind_error {α β ε : Type} (e : ε) (f : α → Except ε β) :
    ((Except.error e : Except ε α) >>= f) = Except.error e := rfl

theorem except_ok_ne_error {α ε : Type} (e : ε) (a : α) :
    (Except.error e : Except ε α) ≠ Except.ok a := by
  intro h
  exact absurd h (by simp)

/-- The `ensureBits` loop, run with enough budget, keeps the byte array,
buffers at least `n` bits on success, never drops buffered bits, does not
move the abstract cursor, and preserves the invariant that no more bits are
buffered than were pulled from the input. -/
theorem ensureBitsGo_ok (n : Nat) (fuel : Nat) :
    ∀ (r r' : BitReader), n ≤ r.bitLength + 8 * fuel →
      BitReader.ensureBitsGo n fuel r = .ok r' →
      r'.bytes = r.bytes ∧ n ≤ r'.bitLength ∧ r.bitLength ≤ r'.bitLength ∧
        r'.cursor = r.cursor ∧
        (r.bitLength ≤ 8 * r.offset → r'.bitLength ≤ 8 * r'.offset) := by
  induction fuel with
  | zero =>
    intro r r' hf h
    obtain rfl : r = r' := by simpa [BitReader.ensureBitsGo] using h
    exact ⟨rfl, by omega, le_refl _, rfl, fun hc => hc⟩
  | succ fuel ih =>
    intro r r' hf h
    rw [BitReader.ensureBitsGo] at h
    by_cases hlt : r.bitLength < n
    · rw [if_pos hlt] at h
      by_cases hend : r.bytes.length ≤ r.offset
      · rw [if_pos hend] at h
        exact absurd h (by simp)
      · rw [if_neg hend] at h
        obtain ⟨h1, h2, h3, h4, h5⟩ :=
          ih ⟨r.bytes,
              (r.bitBuffer ||| ((r.bytes.getD r.offset 0) <<< (r.bitLength % 32))) %
                4294967296,
              r.bitLength + 8, r.offset + 1⟩ r'
            (by show n ≤ r.bitLength + 8 + 8 * fuel; omega) h
        have h3' : r.bitLength + 8 ≤ r'.bitLength := h3
        have h4' : r'.cursor = 8 * (r.offset + 1) - (r.bitLength + 8) := h4
        have h5' : r.bitLength + 8 ≤ 8 * (r.offset + 1) →
            r'.bitLength ≤ 8 * r'.offset := h5
        refine ⟨h1, h2, by omega, ?_, fun hc => h5' (by omega)⟩
        rw [h4']
        simp only [BitReader.cursor]
        omega
    · rw [if_neg hlt] at h
      obtain rfl : r = r' := by simpa using h
      exact ⟨rfl, by omega, le_refl _, rfl, fun hc => hc⟩

/-- Specification of `ensureBits` (whose budget `n + 1` always suffices). -/
theorem ensureBits_ok (n : Nat) (r r' : BitReader) (h : r.ensureBits n = .ok r') :
    r'.bytes = r.bytes ∧ n ≤ r'.bitLength ∧ r.bitLength ≤ r'.bitLength ∧
      r'.cursor = r.cursor ∧
      (r.bitLength ≤ 8 * r.offset → r'.bitLength ≤ 8 * r'.offset) :=
  ensureBitsGo_ok n (n + 1) r r' (by omega) h

/-- If at least `n` bits are already buffered, `ensureBits` is the
identity. -/
theorem ensureBits_of_le (n : Nat) (r : BitReader) (h : n ≤ r.bitLength) :
    r.ensureBits n = .ok r := by
  show BitReader.ensureBitsGo n (n + 1) r = .ok r
  rw [BitReader.ensureBitsGo, if_neg (by omega)]

/-- C8: on any reader state (with the reachable-state invariant that no more
bits are buffered than pulled), whenever `peekBits n` succeeds it returns
exactly the value `readBits n` returns, without moving the cursor; a
`readBits n` performed right after the peek returns the same value and the
same final state as a direct `readBits n`, and that state's cursor has
advanced by `n` bits. -/
theorem peekBits_readBits_frame (r : BitReader) (n v : Nat) (r' : BitReader)
    (hcur : r.bitLength ≤ 8 * r.offset)
    (hpeek : r.peekBits n = .ok (v, r')) :
    r'.cursor = r.cursor ∧
      ∃ r'', r.readBits n = .ok (v, r'') ∧ r'.readBits n = .ok (v, r'') ∧
        r''.cursor = r.cursor + n := by
  simp only [BitReader.peekBits] at hpeek
  rcases he : r.ensureBits n with e | re
  · rw [he] at hpeek
    simp at hpeek
  rw [he] at hpeek
  simp only [except_bind_ok, Except.ok.injEq, Prod.mk.injEq] at hpeek
  obtain ⟨hv, rfl⟩ := hpeek
  subst hv
  obtain ⟨hbytes, hn, hmono, hcur', hinv⟩ := ensureBits_ok n r re he
  have hinv' := hinv hcur
  refine ⟨hcur', ⟨re.bytes, re.bitBuffer >>> (n % 32), re.bitLength - n, re.offset⟩,
    ?_, ?_, ?_⟩
  · simp only [BitReader.readBits]
    rw [he]
    simp
  · simp only [BitReader.readBits]
    rw [ensureBits_of_le n re hn]
    simp
  · show 8 * re.offset - (re.bitLength - n) = r.cursor + n
    simp only [BitReader.cursor] at hcur' ⊢
    omega

/-- Witness for `peekBits_readBits_frame` at a concrete reader. -/
theorem peekBits_readBits_frame_witness :
    (⟨[171], 171, 8, 1⟩ : BitReader).cursor = (BitReader.ofBytes [171]).cursor ∧
      ∃ r'', (BitReader.ofBytes [171]).readBits 3 = .ok (3, r'') ∧
        (⟨[171], 171, 8, 1⟩ : BitReader).readBits 3 = .ok (3, r'') ∧
        r''.cursor = (BitReader.ofBytes [171]).cursor + 3 :=
  peekBits_readBits_frame (BitReader.ofBytes [171]) 3 3 ⟨[171], 171, 8, 1⟩
    (by decide) (by rfl)

/-- C10: `isGzip` holds exactly when the buffer has length strictly greater
than 3 and starts with the magic bytes `1F 8B 08`; in particular the bare
3-byte magic sequence is rejected. -/
theorem isGzip_spec :
    (∀ d : List Nat, isGzip d = true ↔
      (3 < d.length ∧ d.getD 0 0 = 0x1f ∧ d.getD 1 0 = 0x8b ∧ d.getD 2 0 = 0x08)) ∧
      isGzip [0x1f, 0x8b, 0x08] = false := by
  refine ⟨fun d => ?_, by rfl⟩
  simp [isGzip, GZIP_ID1, GZIP_ID2, GZIP_CM_DEFLATE, and_assoc]

/-- C4: whenever the block loop reads a block header whose 2-bit BTYPE is 2
(dynamic Huffman) or 3 (reserved), it fails immediately with the
unsupported-block-type error, for every reader state and partial output. -/
theorem inflate_unsupported_block_type (data : List Nat) (fuel : Nat)
    (r r1 r2 : BitReader) (out : List Nat) (b t : Nat)
    (h1 : r.readBits 1 = .ok (b, r1)) (h2 : r1.readBits 2 = .ok (t, r2))
    (ht : t = 2 ∨ t = 3) :
    inflateBlocks data (fuel + 1) r out = .error "Unsupported DEFLATE block type" := by
  rcases ht with h | h <;> subst h <;>
    simp [inflateBlocks, h1, h2]

/-- Witness for `inflate_unsupported_block_type`: the single byte `0x07`
reads as BFINAL=1, BTYPE=11. -/
theorem inflate_unsupported_block_type_witness :
    inflateBlocks [7] 15 (BitReader.ofBytes [7]) [] =
      .error "Unsupported DEFLATE block type" :=
  inflate_unsupported_block_type [7] 14 (BitReader.ofBytes [7])
    ⟨[7], 3, 7, 1⟩ ⟨[7], 0, 5, 1⟩ [] 1 3 (by rfl) (by rfl) (Or.inr rfl)

/-- C6 (decode side of the back-reference invariant): once a match's length
and distance have been decoded inside a fixed-Huffman block, the inflate loop
fails with the invalid-match-distance error when the distance exceeds the
number of bytes already emitted, and otherwise continues on the output
extended by the byte-by-byte copy. -/
theorem inflate_backref_guard (data : List Nat) (fuel : Nat)
    (r r1 r2 r3 r4 : BitReader) (out : List Nat) (sym ev dsym edv : Nat)
    (h1 : readFixedLiteral r = .ok (sym, r1))
    (h2 : 257 ≤ sym) (h3 : sym - 257 < LENGTH_BASE.length)
    (h4 : readExtra r1 (LENGTH_EXTRA.getD (sym - 257) 0) = .ok (ev, r2))
    (h5 : readFixedDistance r2 = .ok (dsym, r3))
    (h6 : readExtra r3 (DIST_EXTRA.getD dsym 0) = .ok (edv, r4)) :
    (out.length < DIST_BASE.getD dsym 0 + edv →
      inflateItems data (fuel + 1) r out = .error "Invalid match distance") ∧
      (DIST_BASE.getD dsym 0 + edv ≤ out.length →
        inflateItems data (fuel + 1) r out =
          inflateItems data fuel r4
            (matchCopy out (out.length - (DIST_BASE.getD dsym 0 + edv)) 0
              (LENGTH_BASE.getD (sym - 257) 0 + ev))) := by
  constructor <;> intro hd
  · simp only [List.getD_eq_getElem?_getD] at h4 h6 hd
    simp [inflateItems, h1, h4, h5, h6, hd,
      show ¬ sym < 256 from by omega, show ¬ sym = 256 from by omega,
      show ¬ sym - 257 ≥ LENGTH_BASE.length from by omega]
  · simp only [List.getD_eq_getElem?_getD] at h4 h6 hd
    simp [inflateItems, h1, h4, h5, h6, Nat.not_lt.mpr hd,
      show ¬ sym < 256 from by omega, show ¬ sym = 256 from by omega,
      show ¬ sym - 257 ≥ LENGTH_BASE.length from by omega]

/-- Witness for `inflate_backref_guard`: the bytes `[0x40, 0x00]` decode as
length symbol 257 (length 3) followed by distance code 0 (distance 1); with
an empty output the distance is unresolvable. -/
theorem inflate_backref_guard_witness :
    inflateItems [] 5 (BitReader.ofBytes [64, 0]) [] =
      .error "Invalid match distance" :=
  (inflate_backref_guard [] 4 (BitReader.ofBytes [64, 0])
      ⟨[64, 0], 0, 1, 1⟩ ⟨[64, 0], 0, 1, 1⟩ ⟨[64, 0], 0, 4, 2⟩ ⟨[64, 0], 0, 4, 2⟩
      [] 257 0 0 0 (by rfl) (by decide) (by decide) (by rfl) (by rfl) (by rfl)).1
    (by decide)

/-! ## Bit-arithmetic helpers -/

theorem lor_shiftRight (a b n : Nat) : (a ||| b) >>> n = (a >>> n) ||| (b >>> n) := by
  apply Nat.eq_of_testBit_eq
  intro i
  simp [Nat.testBit_shiftRight, Nat.testBit_lor]

theorem and_255_eq_mod (a : Nat) : a &&& 255 = a % 256 := by
  have h := Nat.and_pow_two_sub_one_eq_mod a 8
  norm_num at h
  exact h

/-- Composing a low field below `2^n` with a disjoint shifted field is plain
addition. -/
theorem lor_shiftLeft_eq_add {a : Nat} (b n : Nat) (h : a < 2 ^ n) :
    a ||| (b <<< n) = a + b * 2 ^ n := by
  have hmod : (a ||| (b <<< n)) % 2 ^ n = a := by
    rw [← Nat.and_pow_two_sub_one_eq_mod, Nat.and_distrib_right,
      Nat.and_pow_two_sub_one_eq_mod, Nat.and_pow_two_sub_one_eq_mod,
      Nat.mod_eq_of_lt h, Nat.shiftLeft_eq, Nat.mul_mod_left]
    simp
  have hdiv : (a ||| (b <<< n)) / 2 ^ n = b := by
    have h1 : (a ||| (b <<< n)) >>> n = (a >>> n) ||| ((b <<< n) >>> n) :=
      lor_shiftRight a (b <<< n) n
    rw [Nat.shiftRight_eq_div_pow, Nat.shiftRight_eq_div_pow,
      Nat.shiftRight_eq_div_pow, Nat.shiftLeft_eq, Nat.div_eq_of_lt h,
      Nat.mul_div_cancel _ (Nat.two_pow_pos n)] at h1
    rw [Nat.shiftLeft_eq]
    simpa using h1
  have hdm := Nat.div_add_mod (a ||| (b <<< n)) (2 ^ n)
  rw [hdiv, hmod, Nat.mul_comm] at hdm
  omega

theorem and_255_lt (a : Nat) : a &&& 255 < 256 :=
  Nat.lt_succ_of_le (Nat.and_le_right)

theorem xor_bit_lt {a : Nat} (k : Nat) (ha : a < 256) (hk : k < 8) :
    a ^^^ (1 <<< k) < 256 := by
  have h1 : (1 <<< k : Nat) < 256 := by
    rw [Nat.shiftLeft_eq, Nat.one_mul]
    calc (2 : Nat) ^ k < 2 ^ 8 := Nat.pow_lt_pow_right (by omega) hk
    _ = 256 := by norm_num
  have := Nat.xor_lt_two_pow (n := 8) (by simpa using ha) (by simpa using h1)
  simpa using this

theorem xor_bit_ne (a k : Nat) : a ^^^ (1 <<< k) ≠ a := by
  intro h
  have h2 : (1 <<< k : Nat) = 0 := by
    have h3 := congrArg (fun z => a ^^^ z) h
    simpa [← Nat.xor_assoc] using h3
  have h4 : (0 : Nat) < 1 <<< k := by
    rw [Nat.shiftLeft_eq, Nat.one_mul]
    exact Nat.two_pow_pos k
  omega

/-- The 32-bit little-endian field value as a weighted byte sum. -/
theorem readUint32LE_eq (bytes : List Nat) (ofs : Nat)
    (h0 : bytes.getD ofs 0 < 256) (h1 : bytes.getD (ofs + 1) 0 < 256)
    (h2 : bytes.getD (ofs + 2) 0 < 256) (h3 : bytes.getD (ofs + 3) 0 < 256) :
    readUint32LE bytes ofs =
      bytes.getD ofs 0 + bytes.getD (ofs + 1) 0 * 256 +
        bytes.getD (ofs + 2) 0 * 65536 + bytes.getD (ofs + 3) 0 * 16777216 := by
  unfold readUint32LE
  rw [lor_shiftLeft_eq_add _ 8 (by omega)]
  rw [lor_shiftLeft_eq_add _ 16 (by omega)]
  rw [lor_shiftLeft_eq_add _ 24 (by omega)]
  have : bytes.getD ofs 0 + bytes.getD (ofs + 1) 0 * 2 ^ 8 +
      bytes.getD (ofs + 2) 0 * 2 ^ 16 + bytes.getD (ofs + 3) 0 * 2 ^ 24 <
      4294967296 := by omega
  rw [Nat.mod_eq_of_lt this]
  norm_num

/-! ## Shape of the gzip container -/

theorem uint32LEBytes_length (v : Nat) : (uint32LEBytes v).length = 4 := rfl

theorem uint32LEBytes_getD_lt (v m : Nat) :
    (uint32LEBytes v).getD m 0 < 256 := by
  match m with
  | 0 => exact and_255_lt v
  | 1 => exact and_255_lt _
  | 2 => exact and_255_lt _
  | 3 => exact and_255_lt _
  | (_ + 4) => simp [uint32LEBytes, List.getD]

/-- Reading back a stored 32-bit little-endian word yields the value mod
2^32. -/
theorem readUint32LE_uint32LEBytes (v : Nat) (rest : List Nat) :
    readUint32LE (uint32LEBytes v ++ rest) 0 = v % 4294967296 := by
  simp only [uint32LEBytes, List.cons_append, List.nil_append]
  rw [readUint32LE_eq]
  · simp only [List.getD_cons_zero, List.getD_cons_succ]
    rw [and_255_eq_mod, and_255_eq_mod, and_255_eq_mod, and_255_eq_mod,
      Nat.shiftRight_eq_div_pow, Nat.shiftRight_eq_div_pow,
      Nat.shiftRight_eq_div_pow]
    norm_num
    omega
  · exact and_255_lt _
  · exact and_255_lt _
  · exact and_255_lt _
  · exact and_255_lt _

/-- Bytes of the fixed 10-byte header part of `gzipHeader ++ D ++ F`. -/
theorem getD_HDF (D F : List Nat) (i : Nat) (hi : i < 10) :
    (gzipHeader ++ D ++ F).getD i 0 = gzipHeader.getD i 0 := by
  rw [List.append_assoc,
    List.getD_append _ _ _ _ (by simp [gzipHeader]; omega)]

/-- Footer bytes of `gzipHeader ++ D ++ F` live in `F`. -/
theorem getD_HDF_footer (D F : List Nat) (m : Nat) :
    (gzipHeader ++ D ++ F).getD (10 + D.length + m) 0 = F.getD m 0 := by
  have hl : (gzipHeader ++ D).length = 10 + D.length := by
    simp [gzipHeader]
    omega
  rw [List.getD_append_right _ _ _ _ (by omega), hl,
    show 10 + D.length + m - (10 + D.length) = m from by omega]

/-- A 32-bit footer word of `gzipHeader ++ D ++ F` is read from `F`. -/
theorem readUint32LE_HDF (D F : List Nat) (m : Nat) :
    readUint32LE (gzipHeader ++ D ++ F) (10 + D.length + m) = readUint32LE F m := by
  unfold readUint32LE
  rw [show 10 + D.length + m + 1 = 10 + D.length + (m + 1) from by omega,
    show 10 + D.length + m + 2 = 10 + D.length + (m + 2) from by omega,
    show 10 + D.length + m + 3 = 10 + D.length + (m + 3) from by omega,
    getD_HDF_footer, getD_HDF_footer, getD_HDF_footer, getD_HDF_footer]

theorem length_HDF (D F : List Nat) (hF : F.length = 8) :
    (gzipHeader ++ D ++ F).length = 18 + D.length := by
  simp only [List.length_append, hF, show gzipHeader.length = 10 from rfl]
  omega

/-- On success, `gzipCompress` produced the deflate payload wrapped between
the fixed header and the CRC32/size footer. -/
theorem gzipCompress_shape (x y : List Nat) (h : gzipCompress x = .ok y) :
    ∃ D, deflateFixed x = .ok D ∧
      y = gzipHeader ++ D ++
        (uint32LEBytes (crc32 x) ++ uint32LEBytes (x.length % 4294967296)) := by
  unfold gzipCompress at h
  rcases hD : deflateFixed x with e | D <;> rw [hD] at h
  · simp at h
  · refine ⟨D, rfl, ?_⟩
    simp only [except_bind_ok, Except.ok.injEq] at h
    rw [← h]
    simp [List.append_assoc]

/-- `gzipDecompress` on a buffer of the shape `gzipCompress` produces:
inflate the payload, then check CRC32 and size against the footer words. -/
theorem gzipDecompress_shape (D F : List Nat) (hF : F.length = 8) :
    gzipDecompress (gzipHeader ++ D ++ F) =
      (inflateFixed D).bind (fun inflated =>
        if crc32 inflated ≠ readUint32LE F 0 then .error "CRC32 mismatch"
        else if toInt32 inflated.length ≠ (readUint32LE F 4 : Int) then
          .error "Size mismatch"
        else .ok inflated) := by
  have hlen := length_HDF D F hF
  have h0 := getD_HDF D F 0 (by omega)
  have h1 := getD_HDF D F 1 (by omega)
  have h2 := getD_HDF D F 2 (by omega)
  have h3 := getD_HDF D F 3 (by omega)
  have hdrop : (gzipHeader ++ D ++ F).drop 10 = D ++ F := by
    rw [List.append_assoc]
    have h10 : gzipHeader.length = 10 := rfl
    rw [← h10, List.drop_left]
  have htake : (D ++ F).take D.length = D := List.take_left D F
  have hcrc := readUint32LE_HDF D F 0
  have hsize := readUint32LE_HDF D F 4
  unfold gzipDecompress
  rw [if_neg (by omega)]
  rw [if_neg (by rw [h0, h1, h2]; decide)]
  have hoff : gzipPayloadOffset (gzipHeader ++ D ++ F) = .ok 10 := by
    unfold gzipPayloadOffset
    rw [h3, show gzipHeader.getD 3 0 = 0 from rfl]
    rfl
  rw [hoff]
  simp only [except_bind_ok]
  rw [if_neg (by omega)]
  rw [show (gzipHeader ++ D ++ F).length - 8 - 10 = D.length from by omega]
  rw [hdrop, htake]
  rw [show (gzipHeader ++ D ++ F).length - 8 = 10 + D.length + 0 from by omega, hcrc]
  rw [show (gzipHeader ++ D ++ F).length - 4 = 10 + D.length + 4 from by omega, hsize]
  rcases inflateFixed D with e | inflated <;> simp [Except.bind]

theorem getD_set_ne (l : List Nat) (m v i : Nat) (h : m ≠ i) :
    (l.set m v).getD i 0 = l.getD i 0 := by
  rw [List.getD_eq_getElem?_getD, List.getD_eq_getElem?_getD, List.getElem?_set_ne h]

theorem getD_set_self (l : List Nat) (m v : Nat) (h : m < l.length) :
    (l.set m v).getD m 0 = v := by
  rw [List.getD_eq_getElem?_getD, List.getElem?_set_eq_of_lt _ h]
  rfl

/-- Two 32-bit little-endian reads over byte fields agree exactly when all
four field bytes agree. -/
theorem readUint32LE_congr (L L' : List Nat) (ofs ofs' : Nat)
    (e0 : L.getD ofs 0 = L'.getD ofs' 0) (e1 : L.getD (ofs + 1) 0 = L'.getD (ofs' + 1) 0)
    (e2 : L.getD (ofs + 2) 0 = L'.getD (ofs' + 2) 0)
    (e3 : L.getD (ofs + 3) 0 = L'.getD (ofs' + 3) 0) :
    readUint32LE L ofs = readUint32LE L' ofs' := by
  unfold readUint32LE
  rw [e0, e1, e2, e3]

/-- A 32-bit little-endian read distinguishes fields that differ in exactly
one byte (all bytes being below 256). -/
theorem readUint32LE_flip_ne (L L' : List Nat) (ofs m : Nat) (hm : m < 4)
    (hb : ∀ i, i < 4 → L.getD (ofs + i) 0 < 256 ∧ L'.getD (ofs + i) 0 < 256)
    (hne : L.getD (ofs + m) 0 ≠ L'.getD (ofs + m) 0)
    (heq : ∀ i, i < 4 → i ≠ m → L.getD (ofs + i) 0 = L'.getD (ofs + i) 0) :
    readUint32LE L ofs ≠ readUint32LE L' ofs := by
  have A0 : L.getD ofs 0 < 256 := by simpa using (hb 0 (by omega)).1
  have B0 : L'.getD ofs 0 < 256 := by simpa using (hb 0 (by omega)).2
  have A1 := (hb 1 (by omega)).1
  have B1 := (hb 1 (by omega)).2
  have A2 := (hb 2 (by omega)).1
  have B2 := (hb 2 (by omega)).2
  have A3 := (hb 3 (by omega)).1
  have B3 := (hb 3 (by omega)).2
  rw [readUint32LE_eq L ofs A0 A1 A2 A3, readUint32LE_eq L' ofs B0 B1 B2 B3]
  intro hEq
  interval_cases m
  · simp only [Nat.add_zero] at hne
    have q1 := heq 1 (by omega) (by omega)
    have q2 := heq 2 (by omega) (by omega)
    have q3 := heq 3 (by omega) (by omega)
    omega
  · have q1 : L.getD ofs 0 = L'.getD ofs 0 := by simpa using heq 0 (by omega) (by omega)
    have q2 := heq 2 (by omega) (by omega)
    have q3 := heq 3 (by omega) (by omega)
    omega
  · have q1 : L.getD ofs 0 = L'.getD ofs 0 := by simpa using heq 0 (by omega) (by omega)
    have q2 := heq 1 (by omega) (by omega)
    have q3 := heq 3 (by omega) (by omega)
    omega
  · have q1 : L.getD ofs 0 = L'.getD ofs 0 := by simpa using heq 0 (by omega) (by omega)
    have q2 := heq 1 (by omega) (by omega)
    have q3 := heq 2 (by omega) (by omega)
    omega

/-- C3: for a buffer produced by `gzipCompress` that `gzipDecompress`
accepts, flipping any single bit of the 4-byte CRC32 footer field makes
`gzipDecompress` fail with the CRC-mismatch error, flipping any single bit of
the 4-byte size footer field makes it fail with the size-mismatch error, and
the two error kinds are distinct. -/
theorem footer_bitflip_detection (x y z : List Nat) (j k : Nat)
    (hc : gzipCompress x = .ok y) (hd : gzipDecompress y = .ok z) (hk : k < 8) :
    ((y.length - 8 ≤ j ∧ j < y.length - 4) →
      gzipDecompress (y.set j (y.getD j 0 ^^^ (1 <<< k))) = .error "CRC32 mismatch") ∧
      ((y.length - 4 ≤ j ∧ j < y.length) →
        gzipDecompress (y.set j (y.getD j 0 ^^^ (1 <<< k))) = .error "Size mismatch") ∧
      ("CRC32 mismatch" : String) ≠ "Size mismatch" := by
  obtain ⟨D, hD, hy⟩ := gzipCompress_shape x y hc
  subst hy
  have hF8 : (uint32LEBytes (crc32 x) ++ uint32LEBytes (x.length % 4294967296)).length = 8 := by
    simp [uint32LEBytes]
  have hFb : ∀ i, (uint32LEBytes (crc32 x) ++
      uint32LEBytes (x.length % 4294967296)).getD i 0 < 256 := by
    intro i
    rcases Nat.lt_or_ge i 4 with hi | hi
    · rw [List.getD_append _ _ _ _ (by simp [uint32LEBytes]; omega)]
      exact uint32LEBytes_getD_lt _ _
    · rw [List.getD_append_right _ _ _ _ (by simp [uint32LEBytes]; omega)]
      exact uint32LEBytes_getD_lt _ _
  -- keep the footer abstract from here on
  generalize hFdef : uint32LEBytes (crc32 x) ++ uint32LEBytes (x.length % 4294967296) = F
    at hF8 hFb hd ⊢
  have hlen := length_HDF D F hF8
  have hl10 : (gzipHeader ++ D).length = 10 + D.length := by
    simp [gzipHeader]
    omega
  rw [gzipDecompress_shape D F hF8] at hd
  rcases hI : inflateFixed D with e | z0 <;> rw [hI] at hd
  · exact absurd hd (by simp [Except.bind])
  simp only [Except.bind] at hd
  by_cases hcrcNe : crc32 z0 ≠ readUint32LE F 0
  · rw [if_pos hcrcNe] at hd
    exact absurd hd (by simp)
  rw [if_neg hcrcNe] at hd
  by_cases hsizeNe : toInt32 z0.length ≠ (readUint32LE F 4 : Int)
  · rw [if_pos hsizeNe] at hd
    exact absurd hd (by simp)
  rw [if_neg hsizeNe] at hd
  simp only [Except.ok.injEq] at hd
  subst hd
  have hcrcEq : crc32 z0 = readUint32LE F 0 := not_ne_iff.mp hcrcNe
  have hsizeEq : toInt32 z0.length = (readUint32LE F 4 : Int) := not_ne_iff.mp hsizeNe
  refine ⟨fun hj => ?_, fun hj => ?_, by decide⟩
  · -- CRC field: j = 10 + D.length + m with m < 4
    obtain ⟨hj1, hj2⟩ := hj
    obtain ⟨m, hm4, rfl⟩ : ∃ m, m < 4 ∧ j = 10 + D.length + m :=
      ⟨j - (10 + D.length), by omega, by omega⟩
    rw [getD_HDF_footer D F m]
    rw [List.set_append_right _ _ (by omega), hl10,
      show 10 + D.length + m - (10 + D.length) = m from by omega]
    have hF'8 : (F.set m (F.getD m 0 ^^^ (1 <<< k))).length = 8 := by
      simp [hF8]
    rw [gzipDecompress_shape D _ hF'8, hI]
    simp only [Except.bind]
    rw [if_pos ?_]
    rw [hcrcEq]
    refine (readUint32LE_flip_ne (F.set m (F.getD m 0 ^^^ (1 <<< k))) F 0 m hm4
      ?_ ?_ ?_).symm
    · intro i hi
      rw [Nat.zero_add]
      by_cases him : i = m
      · subst him
        refine ⟨?_, hFb i⟩
        rw [getD_set_self _ _ _ (by omega)]
        exact xor_bit_lt k (hFb i) hk
      · rw [getD_set_ne _ _ _ _ (Ne.symm him)]
        exact ⟨hFb i, hFb i⟩
    · rw [Nat.zero_add, getD_set_self _ _ _ (by omega)]
      exact xor_bit_ne _ _
    · intro i hi him
      rw [Nat.zero_add, getD_set_ne _ _ _ _ (Ne.symm him)]
  · -- size field: j = 10 + D.length + m with 4 ≤ m < 8
    obtain ⟨hj1, hj2⟩ := hj
    obtain ⟨m, hm4, hm8, rfl⟩ : ∃ m, 4 ≤ m ∧ m < 8 ∧ j = 10 + D.length + m :=
      ⟨j - (10 + D.length), by omega, by omega, by omega⟩
    rw [getD_HDF_footer D F m]
    rw [List.set_append_right _ _ (by omega), hl10,
      show 10 + D.length + m - (10 + D.length) = m from by omega]
    have hF'8 : (F.set m (F.getD m 0 ^^^ (1 <<< k))).length = 8 := by
      simp [hF8]
    rw [gzipDecompress_shape D _ hF'8, hI]
    simp only [Except.bind]
    have hsame : readUint32LE (F.set m (F.getD m 0 ^^^ (1 <<< k))) 0 =
        readUint32LE F 0 := by
      refine readUint32LE_congr _ _ 0 0 ?_ ?_ ?_ ?_ <;>
        exact getD_set_ne _ _ _ _ (by omega)
    rw [if_neg (by rw [hsame]; exact not_not_intro hcrcEq)]
    rw [if_pos ?_]
    rw [hsizeEq]
    have hsz : readUint32LE (F.set m (F.getD m 0 ^^^ (1 <<< k))) 4 ≠
        readUint32LE F 4 := by
      refine readUint32LE_flip_ne _ F 4 (m - 4) (by omega) ?_ ?_ ?_
      · intro i hi
        by_cases him : i = m - 4
        · subst him
          rw [show 4 + (m - 4) = m from by omega]
          refine ⟨?_, hFb m⟩
          rw [getD_set_self _ _ _ (by omega)]
          exact xor_bit_lt k (hFb m) hk
        · rw [getD_set_ne _ _ _ _ (by omega)]
          exact ⟨hFb _, hFb _⟩
      · rw [show 4 + (m - 4) = m from by omega, getD_set_self _ _ _ (by omega)]
        exact xor_bit_ne _ _
      · intro i hi him
        rw [getD_set_ne _ _ _ _ (by omega)]
    intro hEq
    exact hsz (Nat.cast_inj.mp hEq).symm

/-! ## The length/distance code tables -/

/-- Every successful scan result satisfies the guard of the row it returned:
its interval contains the value, the row is the `code - codeOfs`-th table
row, and the code is at least the starting code. -/
theorem findCodeScan_ok (msg : String) (codeOfs v : Nat) :
    ∀ (rows : List (Nat × Nat)) (i : Nat) (info : CodeInfo),
      findCodeScan msg codeOfs v i rows = .ok info →
      ∃ jj, jj < rows.length ∧ rows.getD jj (0, 0) = (info.base, info.extraBits) ∧
        info.code = codeOfs + i + jj ∧ info.base ≤ v ∧
        v ≤ info.base + (1 <<< info.extraBits) - 1
  | [], i, info, h => by simp [findCodeScan] at h
  | p :: rest, i, info, h => by
    simp only [findCodeScan] at h
    split_ifs at h with hin
    · simp only [Except.ok.injEq] at h
      subst h
      exact ⟨0, by simp, rfl, show codeOfs + i = codeOfs + i + 0 from by omega,
        hin.1, hin.2⟩
    · obtain ⟨jj, h1, h2, h3, h4, h5⟩ := findCodeScan_ok msg codeOfs v rest (i + 1) info h
      refine ⟨jj + 1, by simp; omega, by simpa [List.getD] using h2, by omega, h4, h5⟩

/-- Boolean check that consecutive `(base, extra)` rows tile the interval
from `lo` to `hi` without gaps. -/
def rowsCover (lo : Nat) : List (Nat × Nat) → Nat → Bool
  | [], hi => decide (hi < lo)
  | (b, e) :: rest, hi => decide (b = lo) && rowsCover (b + (1 <<< e)) rest hi

/-- A scan over rows tiling `[lo, hi]` succeeds on every value in the
interval. -/
theorem findCodeScan_total (msg : String) (codeOfs : Nat) :
    ∀ (rows : List (Nat × Nat)) (lo hi i v : Nat),
      rowsCover lo rows hi = true → lo ≤ v → v ≤ hi →
      ∃ info, findCodeScan msg codeOfs v i rows = .ok info
  | [], lo, hi, i, v, hc, hlo, hhi => by
    simp only [rowsCover, decide_eq_true_eq] at hc
    omega
  | (b, e) :: rest, lo, hi, i, v, hc, hlo, hhi => by
    simp only [rowsCover, Bool.and_eq_true, decide_eq_true_eq] at hc
    obtain ⟨hb, hrest⟩ := hc
    subst hb
    by_cases hv : v ≤ b + (1 <<< e) - 1
    · refine ⟨⟨codeOfs + i, b, e⟩, ?_⟩
      simp only [findCodeScan]
      rw [if_pos ⟨hlo, hv⟩]
    · have hpos : 0 < 1 <<< e := by
        rw [Nat.shiftLeft_eq, Nat.one_mul]
        exact Nat.two_pow_pos _
      obtain ⟨info, hinfo⟩ := findCodeScan_total msg codeOfs rest (b + (1 <<< e)) hi
        (i + 1) v hrest (by omega) hhi
      refine ⟨info, ?_⟩
      simp only [findCodeScan]
      rw [if_neg (fun hh => hv hh.2)]
      exact hinfo

/-- The full specification of `findLengthCode` on the valid match lengths
[3, 258]: it succeeds, the code is one of 257-285, the base/extra pair is the
corresponding row of the standard tables, the length lies in the code's
interval, and at most 5 extra bits are needed. -/
theorem findLengthCode_spec (L : Nat) (h3 : 3 ≤ L) (h258 : L ≤ 258) :
    ∃ info, findLengthCode L = .ok info ∧ 257 ≤ info.code ∧ info.code ≤ 285 ∧
      LENGTH_BASE.getD (info.code - 257) 0 = info.base ∧
      LENGTH_EXTRA.getD (info.code - 257) 0 = info.extraBits ∧
      info.base ≤ L ∧ L - info.base < 1 <<< info.extraBits ∧ info.extraBits ≤ 5 := by
  by_cases h : L = 258
  · subst h
    exact ⟨⟨285, 258, 0⟩, rfl, by decide, by decide, by decide, by decide, by decide,
      by decide, by decide⟩
  · obtain ⟨info, hscan⟩ := findCodeScan_total "Invalid match length" 257
      ((LENGTH_BASE.zip LENGTH_EXTRA).take (LENGTH_BASE.length - 1)) 3 258 0 L
      (by decide) h3 h258
    have hres : findLengthCode L = .ok info := by
      rw [findLengthCode, if_neg h]
      exact hscan
    obtain ⟨jj, hj1, hj2, hj3, hj4, hj5⟩ := findCodeScan_ok _ _ _ _ _ _ hscan
    have hrows : ∀ j < 28,
        ((LENGTH_BASE.zip LENGTH_EXTRA).take (LENGTH_BASE.length - 1)).getD j (0, 0) =
          (LENGTH_BASE.getD j 0, LENGTH_EXTRA.getD j 0) := by decide
    have hlen28 : ((LENGTH_BASE.zip LENGTH_EXTRA).take (LENGTH_BASE.length - 1)).length = 28 := by
      decide
    have hj28 : jj < 28 := by omega
    rw [hrows jj hj28] at hj2
    have hbase : LENGTH_BASE.getD jj 0 = info.base := congrArg Prod.fst hj2
    have hextra : LENGTH_EXTRA.getD jj 0 = info.extraBits := congrArg Prod.snd hj2
    have hextra5 : ∀ j < 29, LENGTH_EXTRA.getD j 0 ≤ 5 := by decide
    have hpos : 0 < 1 <<< info.extraBits := by
      rw [Nat.shiftLeft_eq, Nat.one_mul]
      exact Nat.two_pow_pos _
    refine ⟨info, hres, by omega, by omega, ?_, ?_, hj4, by omega, ?_⟩
    · rw [show info.code - 257 = jj from by omega]
      exact hbase
    · rw [show info.code - 257 = jj from by omega]
      exact hextra
    · rw [← hextra]
      exact hextra5 jj (by omega)

/-- The full specification of `findDistanceCode` on the valid match
distances [1, 32768]. -/
theorem findDistanceCode_spec (D : Nat) (h1 : 1 ≤ D) (h32768 : D ≤ 32768) :
    ∃ info, findDistanceCode D = .ok info ∧ info.code ≤ 29 ∧
      DIST_BASE.getD info.code 0 = info.base ∧
      DIST_EXTRA.getD info.code 0 = info.extraBits ∧
      info.base ≤ D ∧ D - info.base < 1 <<< info.extraBits ∧ info.extraBits ≤ 13 := by
  obtain ⟨info, hscan⟩ := findCodeScan_total "Invalid match distance" 0
    (DIST_BASE.zip DIST_EXTRA) 1 32768 0 D (by decide) h1 h32768
  have hres : findDistanceCode D = .ok info := hscan
  obtain ⟨jj, hj1, hj2, hj3, hj4, hj5⟩ := findCodeScan_ok _ _ _ _ _ _ hscan
  have hrows : ∀ j < 30, (DIST_BASE.zip DIST_EXTRA).getD j (0, 0) =
      (DIST_BASE.getD j 0, DIST_EXTRA.getD j 0) := by decide
  have hlen30 : (DIST_BASE.zip DIST_EXTRA).length = 30 := by decide
  have hj30 : jj < 30 := by omega
  rw [hrows jj hj30] at hj2
  have hbase : DIST_BASE.getD jj 0 = info.base := congrArg Prod.fst hj2
  have hextra : DIST_EXTRA.getD jj 0 = info.extraBits := congrArg Prod.snd hj2
  have hextra13 : ∀ j < 30, DIST_EXTRA.getD j 0 ≤ 13 := by decide
  have hpos : 0 < 1 <<< info.extraBits := by
    rw [Nat.shiftLeft_eq, Nat.one_mul]
    exact Nat.two_pow_pos _
  refine ⟨info, hres, by omega, ?_, ?_, hj4, by omega, ?_⟩
  · rw [show info.code = jj from by omega]
    exact hbase
  · rw [show info.code = jj from by omega]
    exact hextra
  · rw [← hextra]
    exact hextra13 jj (by omega)

/-! ## LZ77 tokenizer invariants -/

theorem bytes_getD_lt {data : List Nat} (hb : Bytes data) (i : Nat) :
    data.getD i 0 < 256 := by
  rcases Nat.lt_or_ge i data.length with hi | hi
  · rw [List.getD_eq_getElem data 0 hi]
    exact hb _ (List.getElem_mem hi)
  · rw [List.getD_eq_default data 0 hi]
    omega

/-- A packed 3-byte key is the base-256 value of its bytes. -/
theorem key_decomp (a b c : Nat) (ha : a < 256) (hbb : b < 256) (hc : c < 256) :
    ((a <<< 16) ||| (b <<< 8)) ||| c = 65536 * a + 256 * b + c := by
  have h1 : (b <<< 8) ||| (a <<< 16) = b <<< 8 + a * 2 ^ 16 := by
    apply lor_shiftLeft_eq_add
    rw [Nat.shiftLeft_eq]
    norm_num
    omega
  have h2 : b <<< 8 + a * 2 ^ 16 = (b + 256 * a) <<< 8 := by
    simp only [Nat.shiftLeft_eq]
    ring
  have h3 : c ||| ((b + 256 * a) <<< 8) = c + (b + 256 * a) * 2 ^ 8 := by
    apply lor_shiftLeft_eq_add
    norm_num
    omega
  calc ((a <<< 16) ||| (b <<< 8)) ||| c
      = ((b <<< 8) ||| (a <<< 16)) ||| c := by rw [Nat.lor_comm (a <<< 16)]
    _ = c ||| ((b <<< 8) ||| (a <<< 16)) := Nat.lor_comm _ _
    _ = c ||| ((b + 256 * a) <<< 8) := by rw [h1, h2]
    _ = c + (b + 256 * a) * 2 ^ 8 := h3
    _ = 65536 * a + 256 * b + c := by ring

theorem computeKey_eq (data : List Nat) (hb : Bytes data) (p : Nat) :
    computeKey data p =
      65536 * data.getD p 0 + 256 * data.getD (p + 1) 0 + data.getD (p + 2) 0 :=
  key_decomp _ _ _ (bytes_getD_lt hb p) (bytes_getD_lt hb (p + 1))
    (bytes_getD_lt hb (p + 2))

/-- Key equality forces equality of the three underlying bytes. -/
theorem computeKey_inj3 (data : List Nat) (hb : Bytes data) (p q i : Nat)
    (hk : computeKey data p = computeKey data q) (hi : i < 3) :
    data.getD (p + i) 0 = data.getD (q + i) 0 := by
  rw [computeKey_eq data hb p, computeKey_eq data hb q] at hk
  have b1 := bytes_getD_lt hb p
  have b2 := bytes_getD_lt hb (p + 1)
  have b3 := bytes_getD_lt hb (p + 2)
  have b4 := bytes_getD_lt hb q
  have b5 := bytes_getD_lt hb (q + 1)
  have b6 := bytes_getD_lt hb (q + 2)
  interval_cases i
  · simpa using (by omega :
      data.getD p 0 = data.getD q 0)
  · omega
  · omega

/-- The state invariant of the hash chains: every `head` entry is an already
inserted (hence in-bounds, below `bound`) position with the right key, every
`prev` link goes strictly backwards to a same-key inserted position, and — on
inputs no longer than the window, where `pruneHead` never drops entries — the
bucket of every inserted position is non-empty. -/
structure LZInv (data : List Nat) (bound : Nat) (st : LZState) : Prop where
  head_lt : ∀ k p, st.head k = some p → p < bound ∧ p + 2 < data.length
  head_key : ∀ k p, st.head k = some p → computeKey data p = k
  prev_lt : ∀ p q, st.prev p = some q → q < p ∧ q + 2 < data.length
  prev_key : ∀ p q, st.prev p = some q → computeKey data q = computeKey data p
  head_ne : data.length ≤ 32768 → ∀ c, c < bound → c + 2 < data.length →
    st.head (computeKey data c) ≠ none

theorem LZInv_empty (data : List Nat) : LZInv data 0 LZState.empty := by
  constructor <;> intro k p h <;> simp [LZState.empty] at h <;> omega

/-- Chasing the chain from a node that is sound for `(b, k)` lands on a node
sound for `(b, k)` (or on `none`). -/
theorem pruneChase_sound (data : List Nat) (prev : Nat → Option Nat)
    (hpl : ∀ p q, prev p = some q → q < p ∧ q + 2 < data.length)
    (hpk : ∀ p q, prev p = some q → computeKey data q = computeKey data p)
    (position : Nat) :
    ∀ (fuel : Nat) (node : Option Nat) (b k : Nat),
      (∀ p0, node = some p0 → p0 < b ∧ p0 + 2 < data.length ∧ computeKey data p0 = k) →
      ∀ p', pruneChase prev position fuel node = some p' →
        p' < b ∧ p' + 2 < data.length ∧ computeKey data p' = k := by
  intro fuel
  induction fuel with
  | zero =>
    intro node b k hnode p' h
    cases node with
    | none => simp [pruneChase] at h
    | some n =>
      obtain rfl : n = p' := by simpa [pruneChase] using h
      exact hnode _ rfl
  | succ fuel ih =>
    intro node b k hnode p' h
    cases node with
    | none => simp [pruneChase] at h
    | some n =>
      rw [pruneChase] at h
      split_ifs at h with hw
      · rcases hn : prev n with _ | q
        · rw [hn] at h
          simp [pruneChase] at h
        · rw [hn] at h
          obtain ⟨hq1, hq2⟩ := hpl n q hn
          have hq3 := hpk n q hn
          have hn' := hnode n rfl
          refine ih (some q) b k ?_ p' h
          intro p0 hp0
          obtain rfl : q = p0 := by simpa using hp0
          exact ⟨by omega, hq2, by rw [hq3, hn'.2.2]⟩
      · obtain rfl : n = p' := by simpa using h
        exact hnode _ rfl

/-- On inputs no longer than the window the chain chase is the identity. -/
theorem pruneChase_small (prev : Nat → Option Nat) (position : Nat)
    (hpos : position ≤ 32768) :
    ∀ (fuel : Nat) (node : Option Nat), pruneChase prev position fuel node = node := by
  intro fuel node
  cases fuel with
  | zero => cases node <;> rfl
  | succ fuel =>
    cases node with
    | none => rfl
    | some n =>
      rw [pruneChase,
        if_neg (by show ¬ position - n > WINDOW_SIZE; simp [WINDOW_SIZE]; omega)]

/-- `pruneHead` preserves the invariant and returns a candidate that is sound
for the queried key. -/
theorem pruneHead_inv (data : List Nat) (bound : Nat) (st : LZState)
    (key position : Nat) (hinv : LZInv data bound st)
    (hpos : position ≤ data.length) :
    LZInv data bound (pruneHead st key position).2 ∧
      (∀ c, (pruneHead st key position).1 = some c →
        c < bound ∧ c + 2 < data.length ∧ computeKey data c = key) := by
  have hchase : ∀ p', pruneChase st.prev position (position + 1) (st.head key) = some p' →
      p' < bound ∧ p' + 2 < data.length ∧ computeKey data p' = key := by
    intro p' h
    refine pruneChase_sound data st.prev (fun p q hq => hinv.prev_lt p q hq)
      (fun p q hq => hinv.prev_key p q hq) position (position + 1) (st.head key) bound key
      ?_ p' h
    intro p0 hp0
    exact ⟨(hinv.head_lt key p0 hp0).1, (hinv.head_lt key p0 hp0).2, hinv.head_key key p0 hp0⟩
  have hsmall : data.length ≤ 32768 →
      ∀ k', ((pruneHead st key position).2).head k' = st.head k' := by
    intro hlen k'
    rw [pruneHead, pruneChase_small st.prev position (by omega)]
    rcases hsk : st.head key with _ | n <;>
      · by_cases hk' : k' = key <;> simp [hk', hsk]
  constructor
  · rcases hch : pruneChase st.prev position (position + 1) (st.head key) with _ | n
    · rw [pruneHead, hch]
      refine ⟨?_, ?_, hinv.prev_lt, hinv.prev_key, ?_⟩
      · intro k p h
        by_cases hk : k = key
        · simp [hk] at h
        · simp only [if_neg hk] at h
          exact hinv.head_lt k p h
      · intro k p h
        by_cases hk : k = key
        · simp [hk] at h
        · simp only [if_neg hk] at h
          exact hinv.head_key k p h
      · intro hlen c hc hc2
        have hs := hsmall hlen (computeKey data c)
        rw [pruneHead, hch] at hs
        rw [hs]
        exact hinv.head_ne hlen c hc hc2
    · rw [pruneHead, hch]
      obtain ⟨hn1, hn2, hn3⟩ := hchase n hch
      refine ⟨?_, ?_, hinv.prev_lt, hinv.prev_key, ?_⟩
      · intro k p h
        by_cases hk : k = key
        · subst hk
          simp only [if_pos rfl] at h
          obtain rfl : n = p := by simpa using h
          exact ⟨hn1, hn2⟩
        · simp only [if_neg hk] at h
          exact hinv.head_lt k p h
      · intro k p h
        by_cases hk : k = key
        · subst hk
          simp only [if_pos rfl] at h
          obtain rfl : n = p := by simpa using h
          exact hn3
        · simp only [if_neg hk] at h
          exact hinv.head_key k p h
      · intro hlen c hc hc2
        have hs := hsmall hlen (computeKey data c)
        rw [pruneHead, hch] at hs
        rw [hs]
        exact hinv.head_ne hlen c hc hc2
  · intro c h
    apply hchase
    rcases hch : pruneChase st.prev position (position + 1) (st.head key) with _ | n <;>
      rw [pruneHead, hch] at h
    · simp at h
    · obtain rfl : n = c := by simpa using h
      rfl

/-- The shape of `insertPosition` below the hashable limit. -/
theorem insertPosition_eq (data : List Nat) (hl : Int) (st : LZState) (pos : Nat)
    (hg : ¬ (pos : Int) ≥ hl) :
    insertPosition data hl st pos =
      { head := fun k => if k = computeKey data pos then some pos
          else (pruneHead st (computeKey data pos) pos).2.head k,
        prev := fun p => if p = pos then (pruneHead st (computeKey data pos) pos).1
          else (pruneHead st (computeKey data pos) pos).2.prev p } := by
  rw [insertPosition, if_neg hg]

/-- `insertPosition` at the current position advances the invariant bound. -/
theorem insertPosition_inv (data : List Nat) (hl : Int)
    (hhl : hl = (data.length : Int) - 2) (st : LZState) (pos : Nat)
    (hpos : pos ≤ data.length) (hinv : LZInv data pos st) :
    LZInv data (pos + 1) (insertPosition data hl st pos) := by
  by_cases hg : (pos : Int) ≥ hl
  · rw [insertPosition, if_pos hg]
    have hgn : ¬ pos + 2 < data.length := by
      subst hhl
      omega
    refine ⟨?_, hinv.head_key, hinv.prev_lt, hinv.prev_key, ?_⟩
    · intro k p h
      obtain ⟨h1, h2⟩ := hinv.head_lt k p h
      exact ⟨by omega, h2⟩
    · intro hlen c hc hc2
      have hc' : c < pos := by omega
      exact hinv.head_ne hlen c hc' hc2
  · have hg2 : pos + 2 < data.length := by
      subst hhl
      omega
    rw [insertPosition_eq data hl st pos hg]
    obtain ⟨hinv1, hcand⟩ := pruneHead_inv data pos st (computeKey data pos) pos hinv hpos
    constructor
    · intro k p h
      replace h : (if k = computeKey data pos then some pos
          else (pruneHead st (computeKey data pos) pos).2.head k) = some p := h
      by_cases hk : k = computeKey data pos
      · rw [if_pos hk] at h
        obtain rfl : pos = p := by simpa using h
        exact ⟨by omega, hg2⟩
      · rw [if_neg hk] at h
        obtain ⟨h1, h2⟩ := hinv1.head_lt k p h
        exact ⟨by omega, h2⟩
    · intro k p h
      replace h : (if k = computeKey data pos then some pos
          else (pruneHead st (computeKey data pos) pos).2.head k) = some p := h
      by_cases hk : k = computeKey data pos
      · rw [if_pos hk] at h
        obtain rfl : pos = p := by simpa using h
        exact hk.symm
      · rw [if_neg hk] at h
        exact hinv1.head_key k p h
    · intro p q h
      replace h : (if p = pos then (pruneHead st (computeKey data pos) pos).1
          else (pruneHead st (computeKey data pos) pos).2.prev p) = some q := h
      by_cases hp : p = pos
      · rw [if_pos hp] at h
        obtain ⟨h1, h2, h3⟩ := hcand q h
        subst hp
        exact ⟨h1, h2⟩
      · rw [if_neg hp] at h
        exact hinv1.prev_lt p q h
    · intro p q h
      replace h : (if p = pos then (pruneHead st (computeKey data pos) pos).1
          else (pruneHead st (computeKey data pos) pos).2.prev p) = some q := h
      by_cases hp : p = pos
      · rw [if_pos hp] at h
        obtain ⟨h1, h2, h3⟩ := hcand q h
        subst hp
        exact h3
      · rw [if_neg hp] at h
        exact hinv1.prev_key p q h
    · intro hlen c hc hc2
      show (if computeKey data c = computeKey data pos then some pos
          else (pruneHead st (computeKey data pos) pos).2.head (computeKey data c)) ≠ none
      by_cases hk : computeKey data c = computeKey data pos
      · rw [if_pos hk]
        simp
      · rw [if_neg hk]
        have hc' : c < pos := by
          rcases Nat.lt_or_ge c pos with h | h
          · exact h
          · exfalso
            apply hk
            congr 1
            omega
        exact hinv1.head_ne hlen c hc' hc2

/-- Inserting every position covered by a match advances the invariant bound
by the match length. -/
theorem insertRange_inv (data : List Nat) (hl : Int)
    (hhl : hl = (data.length : Int) - 2) :
    ∀ (n : Nat) (st : LZState) (pos : Nat), pos + n ≤ data.length →
      LZInv data pos st →
      LZInv data (pos + n) (insertRange data hl st pos n) := by
  intro n
  induction n with
  | zero =>
    intro st pos h1 hinv
    simpa [insertRange] using hinv
  | succ n ih =>
    intro st pos h1 hinv
    rw [insertRange]
    have h2 := ih (insertPosition data hl st pos) (pos + 1) (by omega)
      (insertPosition_inv data hl hhl st pos (by omega) hinv)
    rw [show pos + 1 + n = pos + (n + 1) from by omega] at h2
    exact h2

/-- The extension loop grows the length, stays within its budget, and only
passes positions whose bytes matched. -/
theorem extendMatchGo_spec (data : List Nat) (pos cand : Nat) :
    ∀ (fuel len : Nat),
      len ≤ extendMatchGo data pos cand fuel len ∧
        extendMatchGo data pos cand fuel len ≤ len + fuel ∧
        ∀ i, len ≤ i → i < extendMatchGo data pos cand fuel len →
          data.getD (pos + i) 0 = data.getD (cand + i) 0 := by
  intro fuel
  induction fuel with
  | zero =>
    intro len
    refine ⟨le_refl _, by simp [extendMatchGo], ?_⟩
    intro i h1 h2
    simp [extendMatchGo] at h2
    omega
  | succ fuel ih =>
    intro len
    rw [extendMatchGo]
    split_ifs with heq
    · obtain ⟨h1, h2, h3⟩ := ih (len + 1)
      refine ⟨by omega, by omega, ?_⟩
      intro i hi1 hi2
      rcases Nat.lt_or_ge i (len + 1) with h | h
      · obtain rfl : len = i := by omega
        exact heq
      · exact h3 i h hi2
    · exact ⟨le_refl _, by omega, fun i h1 h2 => by omega⟩

/-- A well-formed match at `pos`: length in [3, 258] and within the input,
distance in [1, 32768] reaching back at most to the start, and every matched
byte equal to the byte `D` earlier. -/
def GoodM (data : List Nat) (pos L D : Nat) : Prop :=
  3 ≤ L ∧ pos + L ≤ data.length ∧ L ≤ 258 ∧ 1 ≤ D ∧ D ≤ 32768 ∧ D ≤ pos ∧
    ∀ i, i < L → data.getD (pos + i) 0 = data.getD (pos - D + i) 0

/-- Soundness of the candidate walk: starting from a sound candidate and a
best result that is empty or well-formed, the walk returns an empty or
well-formed result. -/
theorem walkChain_sound (data : List Nat) (hb : Bytes data) (pos mm : Nat)
    (prev : Nat → Option Nat)
    (hpl : ∀ p q, prev p = some q → q < p ∧ q + 2 < data.length)
    (hpk : ∀ p q, prev p = some q → computeKey data q = computeKey data p)
    (hpos2 : pos + 2 < data.length)
    (hmm3 : 3 ≤ mm) (hmmle : pos + mm ≤ data.length) (hmm258 : mm ≤ 258) :
    ∀ (fuel : Nat) (cand : Option Nat) (bestL bestD : Nat),
      (∀ c, cand = some c → c < pos ∧ c + 2 < data.length ∧
        computeKey data c = computeKey data pos) →
      (bestL = 0 ∧ bestD = 0 ∨ GoodM data pos bestL bestD) →
      ((walkChain data data.length pos mm prev cand fuel bestL bestD).1 = 0 ∧
          (walkChain data data.length pos mm prev cand fuel bestL bestD).2 = 0) ∨
        GoodM data pos (walkChain data data.length pos mm prev cand fuel bestL bestD).1
          (walkChain data data.length pos mm prev cand fuel bestL bestD).2 := by
  intro fuel
  induction fuel with
  | zero =>
    intro cand bestL bestD hcand hbest
    cases cand with
    | none =>
      simpa [walkChain] using hbest
    | some c =>
      simpa [walkChain] using hbest
  | succ fuel ih =>
    intro cand bestL bestD hcand hbest
    cases cand with
    | none =>
      simpa [walkChain] using hbest
    | some c =>
      obtain ⟨hc1, hc2, hc3⟩ := hcand c rfl
      have hnext : ∀ c', prev c = some c' → c' < pos ∧ c' + 2 < data.length ∧
          computeKey data c' = computeKey data pos := by
        intro c' hc'
        obtain ⟨hq1, hq2⟩ := hpl c c' hc'
        have hq3 := hpk c c' hc'
        exact ⟨by omega, hq2, by rw [hq3, hc3]⟩
      obtain ⟨he1, he2, he3⟩ := extendMatchGo_spec data pos c (mm - 3) 3
      have hgm : pos - c ≤ 32768 →
          GoodM data pos (extendMatchGo data pos c (mm - 3) 3) (pos - c) := by
        intro hwle
        refine ⟨by omega, by omega, by omega, by omega, by omega, by omega, ?_⟩
        intro i hi
        rw [show pos - (pos - c) + i = c + i from by omega]
        rcases Nat.lt_or_ge i 3 with h3 | h3
        · exact computeKey_inj3 data hb pos c i hc3.symm h3
        · exact he3 i h3 hi
      simp only [walkChain, extendMatch, MIN_MATCH, MAX_MATCH, WINDOW_SIZE]
      split_ifs with hw htail hlen hmax
      · simpa using hbest
      · exact ih (prev c) bestL bestD hnext hbest
      · refine Or.inr ?_
        simpa using hgm (by omega)
      · exact ih (prev c) _ _ hnext (Or.inr (hgm (by omega)))
      · exact ih (prev c) bestL bestD hnext hbest

/-- `findBestMatch` preserves the chain invariant and returns either no match
or a well-formed one. -/
theorem findBestMatch_sound (data : List Nat) (hb : Bytes data) (hl : Int)
    (hhl : hl = (data.length : Int) - 2) (st : LZState) (b pos : Nat)
    (hble : b ≤ pos)
    (hpos : pos ≤ data.length) (hinv : LZInv data b st) :
    LZInv data b (findBestMatch data data.length hl st pos).2 ∧
      ((findBestMatch data data.length hl st pos).1.1 = 0 ∧
          (findBestMatch data data.length hl st pos).1.2 = 0 ∨
        GoodM data pos (findBestMatch data data.length hl st pos).1.1
          (findBestMatch data data.length hl st pos).1.2) := by
  by_cases hge : (pos : Int) ≥ hl
  · have he : findBestMatch data data.length hl st pos = ((0, 0), st) := by
      rw [findBestMatch, if_pos hge]
    rw [he]
    exact ⟨hinv, Or.inl ⟨rfl, rfl⟩⟩
  · have hp2 : pos + 2 < data.length := by
      subst hhl
      omega
    obtain ⟨hinv2, hcand⟩ :=
      pruneHead_inv data b st (computeKey data pos) pos hinv (by omega)
    have hwalk := walkChain_sound data hb pos (min MAX_MATCH (data.length - pos))
      (pruneHead st (computeKey data pos) pos).2.prev
      (fun p q h => hinv2.prev_lt p q h) (fun p q h => hinv2.prev_key p q h)
      hp2 (by simp only [MAX_MATCH]; omega) (by omega)
      (by simp only [MAX_MATCH]; omega)
      MAX_CHAIN_HITS (pruneHead st (computeKey data pos) pos).1 0 0
      (fun c hc => ⟨lt_of_lt_of_le (hcand c hc).1 hble, (hcand c hc).2.1,
        (hcand c hc).2.2⟩)
      (Or.inl ⟨rfl, rfl⟩)
    simp only [findBestMatch, MIN_MATCH]
    rw [if_neg hge]
    split_ifs with hlt
    · exact ⟨hinv2, Or.inl ⟨rfl, rfl⟩⟩
    · refine ⟨hinv2, Or.inr ?_⟩
      rcases hwalk with ⟨h1, h2⟩ | hg
      · exact absurd h1 (by omega)
      · exact hg

/-- Well-formedness of a token stream starting at position `pos` of `data`:
literals carry the byte at their position and advance by one, matches are
well-formed back-references advancing by their length, and the stream covers
the data exactly to its end. -/
def ValidFrom (data : List Nat) : Nat → List Token → Prop
  | pos, [] => pos = data.length
  | pos, .literal v :: ts =>
    pos < data.length ∧ v = data.getD pos 0 ∧ ValidFrom data (pos + 1) ts
  | pos, .matchTok L D :: ts => GoodM data pos L D ∧ ValidFrom data (pos + L) ts

/-- When the hashable limit is non-positive (inputs shorter than 3 bytes), the
tokenizer loop emits exactly one literal per remaining byte. -/
theorem collectLoop_small (data : List Nat) (hl : Int) (hle : hl ≤ 0) :
    ∀ (fuel : Nat) (st : LZState) (pos : Nat), data.length ≤ pos + fuel →
      collectLoop data data.length hl fuel st pos =
        (data.drop pos).map Token.literal := by
  intro fuel
  induction fuel with
  | zero =>
    intro st pos h
    rw [List.drop_eq_nil_of_le (by omega)]
    rfl
  | succ fuel ih =>
    intro st pos h
    simp only [collectLoop]
    by_cases hlt : pos < data.length
    · have hbm : findBestMatch data data.length hl st pos = ((0, 0), st) := by
        rw [findBestMatch, if_pos (by omega : (pos : Int) ≥ hl)]
      have hneg : ¬ ((((0, 0), st) : (Nat × Nat) × LZState)).1.1 ≥ MIN_MATCH :=
        fun hcon => absurd (show (3 : Nat) ≤ 0 from hcon) (by omega)
      rw [if_pos hlt, hbm, if_neg hneg]
      rw [ih (insertPosition data hl (((0, 0), st)).2 pos) (pos + 1) (by omega)]
      rw [List.drop_eq_getElem_cons hlt, List.map_cons,
        List.getD_eq_getElem data 0 hlt]
    · rw [if_neg hlt, List.drop_eq_nil_of_le (by omega)]
      rfl

/-- The tokenizer loop produces a well-formed token stream from any state
satisfying the chain invariant. -/
theorem collectLoop_valid (data : List Nat) (hb : Bytes data) (hl : Int)
    (hhl : hl = (data.length : Int) - 2) :
    ∀ (fuel : Nat) (st : LZState) (pos : Nat), data.length ≤ pos + fuel →
      pos ≤ data.length → LZInv data pos st →
      ValidFrom data pos (collectLoop data data.length hl fuel st pos) := by
  intro fuel
  induction fuel with
  | zero =>
    intro st pos h1 h2 hinv
    exact (by omega : pos = data.length)
  | succ fuel ih =>
    intro st pos h1 h2 hinv
    simp only [collectLoop]
    by_cases hlt : pos < data.length
    case neg =>
      rw [if_neg hlt]
      exact (by omega : pos = data.length)
    rw [if_pos hlt]
    obtain ⟨hinv1, hres1⟩ := findBestMatch_sound data hb hl hhl st pos pos
      (le_refl _) (by omega) hinv
    by_cases hge3 : (findBestMatch data data.length hl st pos).1.1 ≥ MIN_MATCH
    case neg =>
      rw [if_neg hge3]
      exact ⟨hlt, rfl, ih _ _ (by omega) (by omega)
        (insertPosition_inv data hl hhl _ pos (by omega) hinv1)⟩
    rw [if_pos hge3]
    have hge3' : 3 ≤ (findBestMatch data data.length hl st pos).1.1 := hge3
    have hgood : GoodM data pos (findBestMatch data data.length hl st pos).1.1
        (findBestMatch data data.length hl st pos).1.2 := by
      rcases hres1 with ⟨hz, _⟩ | hg
      · exact absurd hz (by omega)
      · exact hg
    have hadv : pos + (findBestMatch data data.length hl st pos).1.1 ≤ data.length :=
      hgood.2.1
    by_cases hlazy : (findBestMatch data data.length hl st pos).1.1 < MAX_MATCH ∧
        pos + 1 < data.length
    case neg =>
      rw [if_neg hlazy]
      exact ⟨hgood, ih _ _ (by omega) (by omega)
        (insertRange_inv data hl hhl _ _ pos (by omega) hinv1)⟩
    rw [if_pos hlazy]
    obtain ⟨hinv2, _⟩ := findBestMatch_sound data hb hl hhl
      (findBestMatch data data.length hl st pos).2 pos (pos + 1) (by omega)
      (by omega) hinv1
    by_cases hgt : (findBestMatch data data.length hl
        (findBestMatch data data.length hl st pos).2 (pos + 1)).1.1 >
        (findBestMatch data data.length hl st pos).1.1
    · rw [if_pos hgt]
      exact ⟨hlt, rfl, ih _ _ (by omega) (by omega)
        (insertPosition_inv data hl hhl _ pos (by omega) hinv2)⟩
    · rw [if_neg hgt]
      exact ⟨hgood, ih _ _ (by omega) (by omega)
        (insertRange_inv data hl hhl _ _ pos (by omega) hinv2)⟩

/-- `collectTokens` always produces a well-formed token stream. -/
theorem collectTokens_valid (data : List Nat) (hb : Bytes data) :
    ValidFrom data 0 (collectTokens data) := by
  rw [collectTokens]
  split_ifs with h0
  · exact h0.symm
  · exact collectLoop_valid data hb _ (by simp only [MIN_MATCH]; omega)
      data.length LZState.empty 0 (by omega) (by omega) (LZInv_empty data)

/-- Inputs shorter than 3 bytes tokenize to one literal per byte, in order. -/
theorem collectTokens_small (data : List Nat) (h : data.length < 3) :
    collectTokens data = data.map Token.literal := by
  rw [collectTokens]
  split_ifs with h0
  · rw [List.length_eq_zero.mp h0]
    rfl
  · rw [collectLoop_small data _ (by simp only [MIN_MATCH]; omega)
      data.length LZState.empty 0 (by omega)]
    rw [List.drop_zero]

/-- Every token of a well-formed stream is a bounded literal or a bounded
match. -/
theorem ValidFrom_mem (data : List Nat) (hb : Bytes data) :
    ∀ (ts : List Token) (pos : Nat), ValidFrom data pos ts →
      ∀ t ∈ ts, (∃ v, t = Token.literal v ∧ v < 256) ∨
        (∃ L D, t = Token.matchTok L D ∧ 3 ≤ L ∧ L ≤ 258 ∧ 1 ≤ D ∧ D ≤ 32768) := by
  intro ts
  induction ts with
  | nil =>
    intro pos h t ht
    simp at ht
  | cons t ts ih =>
    intro pos h u hu
    cases t with
    | literal v =>
      obtain ⟨h1, h2, h3⟩ := h
      rcases List.mem_cons.mp hu with rfl | hu
      · exact Or.inl ⟨v, rfl, h2 ▸ bytes_getD_lt hb pos⟩
      · exact ih (pos + 1) h3 u hu
    | matchTok L D =>
      obtain ⟨hg, h3⟩ := h
      rcases List.mem_cons.mp hu with rfl | hu
      · exact Or.inr ⟨L, D, rfl, hg.1, hg.2.2.1, hg.2.2.2.1, hg.2.2.2.2.1⟩
      · exact ih (pos + L) h3 u hu

/-- **C7**: for every byte buffer, the token stream of `collectTokens` is
well-formed from position 0 (so every match's distance is at most the number
of bytes preceding its position), every token is a literal with value in
[0, 255] or a match with length in [3, 258] and distance in [1, 32768], and
inputs shorter than 3 bytes yield exactly one literal per input byte in input
order. -/
theorem collectTokens_wellformed (data : List Nat) (hb : Bytes data) :
    ValidFrom data 0 (collectTokens data) ∧
      (∀ t ∈ collectTokens data,
        (∃ v, t = Token.literal v ∧ v < 256) ∨
          (∃ L D, t = Token.matchTok L D ∧
            3 ≤ L ∧ L ≤ 258 ∧ 1 ≤ D ∧ D ≤ 32768)) ∧
      (data.length < 3 → collectTokens data = data.map Token.literal) :=
  ⟨collectTokens_valid data hb,
    ValidFrom_mem data hb _ 0 (collectTokens_valid data hb),
    fun h => collectTokens_small data h⟩

/-- Witness for `collectTokens_wellformed` at a concrete 8-byte buffer. -/
theorem collectTokens_wellformed_witness :
    Bytes [1, 2, 3, 1, 2, 3, 1, 2] ∧
      (ValidFrom [1, 2, 3, 1, 2, 3, 1, 2] 0
          (collectTokens [1, 2, 3, 1, 2, 3, 1, 2]) ∧
        (∀ t ∈ collectTokens [1, 2, 3, 1, 2, 3, 1, 2],
          (∃ v, t = Token.literal v ∧ v < 256) ∨
            (∃ L D, t = Token.matchTok L D ∧
              3 ≤ L ∧ L ≤ 258 ∧ 1 ≤ D ∧ D ≤ 32768)) ∧
        (([1, 2, 3, 1, 2, 3, 1, 2] : List Nat).length < 3 →
          collectTokens [1, 2, 3, 1, 2, 3, 1, 2] =
            ([1, 2, 3, 1, 2, 3, 1, 2] : List Nat).map Token.literal)) :=
  ⟨by decide, collectTokens_wellformed [1, 2, 3, 1, 2, 3, 1, 2] (by decide)⟩

/-- Encoding a bounded token never fails: the length/distance table scans
always find a row. -/
theorem writeToken_ok (w : BitWriter) (t : Token)
    (ht : (∃ v, t = Token.literal v) ∨
      ∃ L D, t = Token.matchTok L D ∧ 3 ≤ L ∧ L ≤ 258 ∧ 1 ≤ D ∧ D ≤ 32768) :
    ∃ w', writeToken w t = .ok w' := by
  rcases ht with ⟨v, rfl⟩ | ⟨L, D, rfl, h3, h258, h1, h32768⟩
  · exact ⟨_, rfl⟩
  · obtain ⟨info, hinfo, _⟩ := findLengthCode_spec L h3 h258
    obtain ⟨dinfo, hdinfo, _⟩ := findDistanceCode_spec D h1 h32768
    rcases h : writeToken w (Token.matchTok L D) with e | w2
    · simp only [writeToken, hinfo, hdinfo, except_bind_ok] at h
      exact Except.noConfusion h
    · exact ⟨w2, rfl⟩

/-- Encoding a list of bounded tokens never fails. -/
theorem writeTokens_ok :
    ∀ (ts : List Token) (w : BitWriter),
      (∀ t ∈ ts, (∃ v, t = Token.literal v) ∨
        ∃ L D, t = Token.matchTok L D ∧ 3 ≤ L ∧ L ≤ 258 ∧ 1 ≤ D ∧ D ≤ 32768) →
      ∃ w', writeTokens w ts = .ok w' := by
  intro ts
  induction ts with
  | nil =>
    intro w h
    exact ⟨w, rfl⟩
  | cons t ts ih =>
    intro w h
    obtain ⟨w1, hw1⟩ := writeToken_ok w t (h t (List.mem_cons_self t ts))
    obtain ⟨w2, hw2⟩ := ih w1 (fun u hu => h u (List.mem_cons_of_mem t hu))
    refine ⟨w2, ?_⟩
    rw [writeTokens, hw1]
    simpa using hw2

/-- `deflateFixed` succeeds on every byte buffer. -/
theorem deflateFixed_ok (data : List Nat) (hb : Bytes data) :
    ∃ y, deflateFixed data = .ok y := by
  have hmem := ValidFrom_mem data hb _ 0 (collectTokens_valid data hb)
  obtain ⟨w', hw'⟩ := writeTokens_ok (collectTokens data)
    ((BitWriter.empty.writeBits 1 1).writeBits 1 2)
    (fun t ht => by
      rcases hmem t ht with ⟨v, hvv, _⟩ | ⟨L, D, hm, hb1, hb2, hb3, hb4⟩
      · exact Or.inl ⟨v, hvv⟩
      · exact Or.inr ⟨L, D, hm, hb1, hb2, hb3, hb4⟩)
  rcases h : deflateFixed data with e | y
  · simp only [deflateFixed, hw', except_bind_ok] at h
    exact Except.noConfusion h
  · exact ⟨y, rfl⟩

/-- **C2**: `gzipCompress` succeeds on every byte buffer; in particular, on
every match token produced by `collectTokens`, both `findLengthCode` and
`findDistanceCode` return a row rather than their error. -/
theorem gzipCompress_total (data : List Nat) (hb : Bytes data) :
    (∃ y, gzipCompress data = .ok y) ∧
      ∀ t ∈ collectTokens data, ∀ L D, t = Token.matchTok L D →
        (∃ i, findLengthCode L = .ok i) ∧ (∃ i, findDistanceCode D = .ok i) := by
  have hmem := ValidFrom_mem data hb _ 0 (collectTokens_valid data hb)
  obtain ⟨d, hd⟩ := deflateFixed_ok data hb
  refine ⟨?_, ?_⟩
  · rcases h : gzipCompress data with e | y
    · simp only [gzipCompress, hd, except_bind_ok] at h
      exact Except.noConfusion h
    · exact ⟨y, rfl⟩
  · intro t ht L D hm
    subst hm
    rcases hmem _ ht with ⟨v, heq, _⟩ | ⟨L', D', heq, hb1, hb2, hb3, hb4⟩
    · exact absurd heq (by simp)
    · injection heq with h1 h2
      subst h1
      subst h2
      obtain ⟨i1, hi1, _⟩ := findLengthCode_spec L hb1 hb2
      obtain ⟨i2, hi2, _⟩ := findDistanceCode_spec D hb3 hb4
      exact ⟨⟨i1, hi1⟩, ⟨i2, hi2⟩⟩

/-- Witness for `gzipCompress_total` at a concrete 3-byte buffer. -/
theorem gzipCompress_total_witness :
    Bytes [5, 6, 7] ∧
      ((∃ y, gzipCompress [5, 6, 7] = .ok y) ∧
        ∀ t ∈ collectTokens [5, 6, 7], ∀ L D, t = Token.matchTok L D →
          (∃ i, findLengthCode L = .ok i) ∧ (∃ i, findDistanceCode D = .ok i)) :=
  ⟨by decide, gzipCompress_total [5, 6, 7] (by decide)⟩

/-- **C5**: the output of `gzipCompress` is at least 10 bytes long and starts
with the fixed header `[0x1F, 0x8B, 0x08, 0, 0, 0, 0, 0, 0, 0xFF]`. -/
theorem gzipCompress_header_shape (data : List Nat) (hb : Bytes data) :
    ∃ y, gzipCompress data = .ok y ∧ 10 ≤ y.length ∧
      y.take 10 = [0x1F, 0x8B, 0x08, 0x00, 0x00, 0x00, 0x00, 0x00, 0x00, 0xFF] := by
  obtain ⟨d, hd⟩ := deflateFixed_ok data hb
  have hy : gzipCompress data = .ok (gzipHeader ++ d ++ uint32LEBytes (crc32 data) ++
      uint32LEBytes (data.length % 4294967296)) := by
    simp only [gzipCompress, hd, except_bind_ok]
  refine ⟨_, hy, ?_, ?_⟩
  · simp [List.length_append, gzipHeader]
  · rw [List.append_assoc, List.append_assoc,
      show (10 : Nat) = gzipHeader.length from rfl, List.take_left]
    rfl

/-- Witness for `gzipCompress_header_shape` at the empty buffer. -/
theorem gzipCompress_header_shape_witness :
    Bytes [] ∧
      ∃ y, gzipCompress [] = .ok y ∧ 10 ≤ y.length ∧
        y.take 10 = [0x1F, 0x8B, 0x08, 0x00, 0x00, 0x00, 0x00, 0x00, 0x00, 0xFF] :=
  ⟨by decide, gzipCompress_header_shape [] (by decide)⟩

/-- Witness for `footer_bitflip_detection`: compressing the empty buffer and
flipping bit 0 of the first CRC byte. -/
theorem footer_bitflip_detection_witness :
    gzipDecompress
        (([31, 139, 8, 0, 0, 0, 0, 0, 0, 255, 3, 0, 0, 0, 0, 0, 0, 0, 0, 0] :
            List Nat).set 12
          (([31, 139, 8, 0, 0, 0, 0, 0, 0, 255, 3, 0, 0, 0, 0, 0, 0, 0, 0, 0] :
              List Nat).getD 12 0 ^^^ (1 <<< 0))) =
      .error "CRC32 mismatch" :=
  (footer_bitflip_detection []
      [31, 139, 8, 0, 0, 0, 0, 0, 0, 255, 3, 0, 0, 0, 0, 0, 0, 0, 0, 0] [] 12 0
      (by rfl) (by rfl) (by omega)).1 (by decide)

/-! ## Bit-stream abstraction

The writer emits and the reader consumes bits LSB-first within each byte;
both sides are abstracted to `List Bool` bit streams. -/

/-- The `k` low bits of `n`, least-significant first. -/
def natBits : Nat → Nat → List Bool
  | 0, _ => []
  | k + 1, n => (n % 2 == 1) :: natBits k (n / 2)

/-- Value of an LSB-first bit string. -/
def bitsToNat : List Bool → Nat
  | [] => 0
  | b :: bs => (if b then 1 else 0) + 2 * bitsToNat bs

/-- The bit stream of a byte buffer: 8 bits per byte, LSB first. -/
def bytesBits : List Nat → List Bool
  | [] => []
  | b :: bs => natBits 8 b ++ bytesBits bs

theorem mod_two_pow_succ (n k : Nat) :
    n % 2 ^ (k + 1) = n % 2 + 2 * (n / 2 % 2 ^ k) := by
  rw [pow_succ', Nat.mod_mul]

theorem natBits_length (k : Nat) : ∀ n, (natBits k n).length = k := by
  induction k with
  | zero =>
    intro n
    rfl
  | succ k ih =>
    intro n
    simp [natBits, ih]

theorem bitsToNat_natBits (k : Nat) : ∀ n, bitsToNat (natBits k n) = n % 2 ^ k := by
  induction k with
  | zero =>
    intro n
    simp [natBits, bitsToNat, Nat.mod_one]
  | succ k ih =>
    intro n
    rw [natBits, bitsToNat, ih, mod_two_pow_succ]
    rcases Nat.mod_two_eq_zero_or_one n with h | h <;> simp [h]

theorem natBits_mod (k : Nat) : ∀ n, natBits k (n % 2 ^ k) = natBits k n := by
  induction k with
  | zero =>
    intro n
    rfl
  | succ k ih =>
    intro n
    have hm := mod_two_pow_succ n k
    have h2 : (0:Nat) < 2 ^ k := Nat.two_pow_pos k
    have ha : n / 2 % 2 ^ k < 2 ^ k := Nat.mod_lt _ h2
    have hr : n % 2 < 2 := Nat.mod_lt _ (by omega)
    have h1 : n % 2 ^ (k + 1) % 2 = n % 2 := by omega
    have h3 : n % 2 ^ (k + 1) / 2 = n / 2 % 2 ^ k := by omega
    rw [natBits, natBits, h1, h3, ih (n / 2)]

theorem natBits_add (j k : Nat) : ∀ n,
    natBits (j + k) n = natBits j n ++ natBits k (n / 2 ^ j) := by
  induction j with
  | zero =>
    intro n
    simp [natBits]
  | succ j ih =>
    intro n
    rw [show j + 1 + k = (j + k) + 1 from by omega]
    rw [natBits, natBits, ih (n / 2), List.cons_append,
      Nat.div_div_eq_div_mul, ← pow_succ']

theorem bitsToNat_append (xs : List Bool) : ∀ ys,
    bitsToNat (xs ++ ys) = bitsToNat xs + 2 ^ xs.length * bitsToNat ys := by
  induction xs with
  | nil =>
    intro ys
    simp [bitsToNat]
  | cons b bs ih =>
    intro ys
    rw [List.cons_append, bitsToNat, bitsToNat, ih, List.length_cons, pow_succ']
    ring

theorem bitsToNat_lt (xs : List Bool) : bitsToNat xs < 2 ^ xs.length := by
  induction xs with
  | nil => simp [bitsToNat]
  | cons b bs ih =>
    rw [bitsToNat, List.length_cons, pow_succ']
    rcases b <;> simp <;> omega

theorem natBits_zero_val (k : Nat) : natBits k 0 = List.replicate k false := by
  induction k with
  | zero => rfl
  | succ k ih =>
    rw [natBits, ih]
    rfl

theorem natBits_take (j : Nat) :
    ∀ k n, j ≤ k → (natBits k n).take j = natBits j n := by
  induction j with
  | zero =>
    intro k n h
    rfl
  | succ j ih =>
    intro k n h
    cases k with
    | zero => omega
    | succ k =>
      rw [natBits, natBits, List.take_succ_cons, ih k (n / 2) (by omega)]

theorem natBits_drop (j : Nat) :
    ∀ k n, j ≤ k → (natBits k n).drop j = natBits (k - j) (n / 2 ^ j) := by
  induction j with
  | zero =>
    intro k n h
    simp
  | succ j ih =>
    intro k n h
    cases k with
    | zero => omega
    | succ k =>
      rw [natBits, List.drop_succ_cons, ih k (n / 2) (by omega),
        Nat.div_div_eq_div_mul, ← pow_succ', Nat.succ_sub_succ]

theorem bytesBits_append : ∀ xs ys : List Nat,
    bytesBits (xs ++ ys) = bytesBits xs ++ bytesBits ys := by
  intro xs
  induction xs with
  | nil =>
    intro ys
    rfl
  | cons b bs ih =>
    intro ys
    rw [List.cons_append, bytesBits, bytesBits, ih, List.append_assoc]

theorem bytesBits_length : ∀ xs : List Nat, (bytesBits xs).length = 8 * xs.length := by
  intro xs
  induction xs with
  | nil => rfl
  | cons b bs ih =>
    rw [bytesBits, List.length_append, natBits_length, ih, List.length_cons]
    ring

theorem bytesBits_drop (k : Nat) :
    ∀ xs : List Nat, (bytesBits xs).drop (8 * k) = bytesBits (xs.drop k) := by
  induction k with
  | zero =>
    intro xs
    simp
  | succ k ih =>
    intro xs
    cases xs with
    | nil => simp [bytesBits]
    | cons b bs =>
      have h8 : (natBits 8 b ++ bytesBits bs).drop 8 = bytesBits bs := by
        rw [show (8:Nat) = (natBits 8 b).length from (natBits_length 8 b).symm]
        exact List.drop_left _ _
      rw [bytesBits, show 8 * (k + 1) = 8 + 8 * k from by omega, ← List.drop_drop,
        h8, ih bs]
      rfl

/-- Byte buffers compose. -/
theorem bytes_append {xs ys : List Nat} (h1 : Bytes xs) (h2 : Bytes ys) :
    Bytes (xs ++ ys) := by
  intro b hb
  rcases List.mem_append.mp hb with h | h
  · exact h1 b h
  · exact h2 b h

/-- Below a shift count of 32, `jsMask` is the usual low-bit mask. -/
theorem jsMask_eq (n : Nat) (h : n < 32) : jsMask n = 2 ^ n - 1 := by
  have hlt : (2:Nat) ^ n < 4294967296 := by
    calc (2:Nat) ^ n < 2 ^ 32 := Nat.pow_lt_pow_right (by omega) h
      _ = 4294967296 := by norm_num
  rw [jsMask, Nat.mod_eq_of_lt h, Nat.shiftLeft_eq, Nat.one_mul,
    Nat.mod_eq_of_lt hlt]

/-- Writer abstraction: all bits emitted so far, LSB-first. -/
def wBits (w : BitWriter) : List Bool :=
  bytesBits w.byteBuffer ++ natBits w.bitLength w.bitBuffer

/-- Writer invariant maintained between `writeBits` calls: fewer than 8 live
accumulator bits, and flushed bytes are bytes. -/
def WInv (w : BitWriter) : Prop :=
  w.bitBuffer < 2 ^ w.bitLength ∧ w.bitLength < 8 ∧ Bytes w.byteBuffer

theorem WInv_empty : WInv BitWriter.empty := ⟨by decide, by decide, by decide⟩

theorem wBits_empty : wBits BitWriter.empty = [] := rfl

/-- The flush loop preserves the emitted bit stream and restores the
invariant. -/
theorem flushGo_spec : ∀ (fuel : Nat) (w : BitWriter),
    w.bitBuffer < 2 ^ w.bitLength → w.bitLength ≤ 8 * fuel + 7 →
    Bytes w.byteBuffer →
    WInv (BitWriter.flushGo fuel w) ∧ wBits (BitWriter.flushGo fuel w) = wBits w := by
  intro fuel
  induction fuel with
  | zero =>
    intro w h1 h2 h3
    exact ⟨⟨h1, (by omega : w.bitLength < 8), h3⟩, rfl⟩
  | succ fuel ih =>
    intro w h1 h2 h3
    rw [BitWriter.flushGo]
    by_cases h8 : 8 ≤ w.bitLength
    · rw [if_pos h8]
      have hpow : 2 ^ (w.bitLength - 8) * 2 ^ 8 = 2 ^ w.bitLength := by
        rw [← pow_add, show w.bitLength - 8 + 8 = w.bitLength from by omega]
      have h1' : w.bitBuffer >>> 8 < 2 ^ (w.bitLength - 8) := by
        rw [Nat.shiftRight_eq_div_pow]
        exact Nat.div_lt_of_lt_mul (by omega)
      have h3' : Bytes (w.byteBuffer ++ [w.bitBuffer &&& 0xff]) :=
        bytes_append h3 (by
          intro b hb
          rcases List.mem_singleton.mp hb with rfl
          exact and_255_lt _)
      obtain ⟨hinv, heq⟩ := ih
        ⟨w.byteBuffer ++ [w.bitBuffer &&& 0xff], w.bitBuffer >>> 8, w.bitLength - 8⟩
        h1' (by show w.bitLength - 8 ≤ 8 * fuel + 7; omega) h3'
      refine ⟨hinv, ?_⟩
      rw [heq]
      show bytesBits (w.byteBuffer ++ [w.bitBuffer &&& 0xff]) ++
          natBits (w.bitLength - 8) (w.bitBuffer >>> 8) = wBits w
      rw [bytesBits_append, and_255_eq_mod,
        show bytesBits [w.bitBuffer % 256] = natBits 8 (w.bitBuffer % 256) ++ []
          from rfl,
        List.append_nil, show (256:Nat) = 2 ^ 8 from rfl, natBits_mod,
        Nat.shiftRight_eq_div_pow]
      conv_rhs => rw [wBits,
        show w.bitLength = 8 + (w.bitLength - 8) from by omega, natBits_add]
      rw [List.append_assoc]
    · rw [if_neg h8]
      exact ⟨⟨h1, by omega, h3⟩, rfl⟩

theorem flush_spec (w : BitWriter) (h1 : w.bitBuffer < 2 ^ w.bitLength)
    (h3 : Bytes w.byteBuffer) :
    WInv w.flush ∧ wBits w.flush = wBits w :=
  flushGo_spec w.bitLength w h1 (by omega) h3

/-- `writeBits` appends exactly the `n` low bits of the value, LSB-first. -/
theorem writeBits_spec (w : BitWriter) (v n : Nat) (hinv : WInv w) (hn : n ≤ 16) :
    WInv (w.writeBits v n) ∧ wBits (w.writeBits v n) = wBits w ++ natBits n v := by
  obtain ⟨h1, h2, h3⟩ := hinv
  by_cases h0 : n = 0
  · subst h0
    rw [BitWriter.writeBits, if_pos rfl]
    exact ⟨⟨h1, h2, h3⟩, by simp [natBits]⟩
  · simp only [BitWriter.writeBits]
    rw [if_neg h0]
    have hv : v &&& jsMask n = v % 2 ^ n := by
      rw [jsMask_eq n (by omega), Nat.and_pow_two_sub_one_eq_mod]
    have hvlt : v % 2 ^ n < 2 ^ n := Nat.mod_lt _ (Nat.two_pow_pos n)
    have hadd : w.bitBuffer ||| ((v % 2 ^ n) <<< w.bitLength)
        = w.bitBuffer + (v % 2 ^ n) * 2 ^ w.bitLength :=
      lor_shiftLeft_eq_add _ _ h1
    have hexp : (2:Nat) ^ (w.bitLength + n) = 2 ^ w.bitLength * 2 ^ n :=
      pow_add 2 _ _
    have hle : (v % 2 ^ n) * 2 ^ w.bitLength ≤ (2 ^ n - 1) * 2 ^ w.bitLength :=
      Nat.mul_le_mul_right _ (by omega)
    have hd : (2 ^ n - 1) * 2 ^ w.bitLength
        = 2 ^ w.bitLength * 2 ^ n - 2 ^ w.bitLength := by
      rw [Nat.sub_mul, one_mul, Nat.mul_comm]
    have hA : 2 ^ w.bitLength ≤ 2 ^ w.bitLength * 2 ^ n :=
      Nat.le_mul_of_pos_right _ (Nat.two_pow_pos n)
    have hsum_lt : w.bitBuffer + (v % 2 ^ n) * 2 ^ w.bitLength
        < 2 ^ (w.bitLength + n) := by
      omega
    have hmod32 : (w.bitBuffer + (v % 2 ^ n) * 2 ^ w.bitLength) % 4294967296
        = w.bitBuffer + (v % 2 ^ n) * 2 ^ w.bitLength := by
      apply Nat.mod_eq_of_lt
      have hlt2 : (2:Nat) ^ (w.bitLength + n) ≤ 2 ^ 32 :=
        Nat.pow_le_pow_right (by omega) (by omega)
      have h32 : (2:Nat) ^ 32 = 4294967296 := by norm_num
      omega
    have hq : (w.bitBuffer + (v % 2 ^ n) * 2 ^ w.bitLength) / 2 ^ w.bitLength
        = v % 2 ^ n := by
      rw [Nat.add_mul_div_right _ _ (Nat.two_pow_pos _), Nat.div_eq_of_lt h1]
      omega
    have hsplit : natBits (w.bitLength + n)
        (w.bitBuffer + (v % 2 ^ n) * 2 ^ w.bitLength)
        = natBits w.bitLength w.bitBuffer ++ natBits n v := by
      rw [natBits_add]
      congr 1
      · calc natBits w.bitLength (w.bitBuffer + (v % 2 ^ n) * 2 ^ w.bitLength)
            = natBits w.bitLength
                ((w.bitBuffer + (v % 2 ^ n) * 2 ^ w.bitLength) % 2 ^ w.bitLength) :=
              (natBits_mod _ _).symm
          _ = natBits w.bitLength w.bitBuffer := by
              rw [Nat.add_mul_mod_self_right, Nat.mod_eq_of_lt h1]
      · rw [hq]
        exact natBits_mod n v
    rw [hv, hadd, hmod32]
    obtain ⟨hinv', heq⟩ := flush_spec
      ⟨w.byteBuffer, w.bitBuffer + (v % 2 ^ n) * 2 ^ w.bitLength, w.bitLength + n⟩
      hsum_lt h3
    refine ⟨hinv', ?_⟩
    rw [heq]
    show bytesBits w.byteBuffer ++
        natBits (w.bitLength + n) (w.bitBuffer + (v % 2 ^ n) * 2 ^ w.bitLength)
      = wBits w ++ natBits n v
    rw [hsplit, wBits, List.append_assoc]

/-- `toUint8Array` emits the stream plus zero padding to the byte boundary. -/
theorem toUint8Array_spec (w : BitWriter) (hinv : WInv w) :
    Bytes w.toUint8Array ∧
      bytesBits w.toUint8Array = wBits w ++
        List.replicate ((8 - w.bitLength) % 8) false := by
  obtain ⟨h1, h2, h3⟩ := hinv
  rw [BitWriter.toUint8Array, BitWriter.alignToByte]
  by_cases hz : 0 < w.bitLength
  · rw [if_pos hz]
    have hb256 : w.bitBuffer < 256 := by
      have hp : (2:Nat) ^ w.bitLength ≤ 2 ^ 8 := Nat.pow_le_pow_right (by omega) (by omega)
      have h8 : (2:Nat) ^ 8 = 256 := by norm_num
      omega
    have hnat8 : natBits 8 w.bitBuffer
        = natBits w.bitLength w.bitBuffer ++ List.replicate (8 - w.bitLength) false := by
      conv_lhs => rw [show (8:Nat) = w.bitLength + (8 - w.bitLength) from by omega]
      rw [natBits_add, Nat.div_eq_of_lt h1, natBits_zero_val]
    have hmod8 : (8 - w.bitLength) % 8 = 8 - w.bitLength := Nat.mod_eq_of_lt (by omega)
    refine ⟨bytes_append h3 (by
      intro b hb
      rcases List.mem_singleton.mp hb with rfl
      exact and_255_lt _), ?_⟩
    show bytesBits (w.byteBuffer ++ [w.bitBuffer &&& 255]) = _
    rw [bytesBits_append, and_255_eq_mod, Nat.mod_eq_of_lt hb256,
      show bytesBits [w.bitBuffer] = natBits 8 w.bitBuffer ++ [] from rfl,
      List.append_nil, hnat8, wBits, hmod8, List.append_assoc]
  · rw [if_neg hz]
    have hlen0 : w.bitLength = 0 := by omega
    refine ⟨h3, ?_⟩
    rw [wBits, hlen0]
    simp [natBits]

/-- Reader invariant: the accumulator holds exactly the next `bitLength`
stream bits at the cursor, and stays below 24 live bits. -/
def RInv (r : BitReader) : Prop :=
  Bytes r.bytes ∧ r.bitBuffer < 2 ^ r.bitLength ∧ r.bitLength < 24 ∧
    r.offset ≤ r.bytes.length ∧ r.bitLength ≤ 8 * r.offset ∧
    natBits r.bitLength r.bitBuffer =
      ((bytesBits r.bytes).drop (8 * r.offset - r.bitLength)).take r.bitLength

theorem RInv_ofBytes (d : List Nat) (hd : Bytes d) : RInv (BitReader.ofBytes d) := by
  refine ⟨hd, ?_, ?_, ?_, ?_, ?_⟩ <;> simp [BitReader.ofBytes, natBits]

theorem cursor_eq (r : BitReader) : r.cursor = 8 * r.offset - r.bitLength := rfl

/-- The fill loop succeeds whenever enough input bits remain, preserves the
cursor and the invariant, and leaves at least `n` buffered bits. -/
theorem ensureBitsGo_bits : ∀ (fuel : Nat) (r : BitReader) (n : Nat),
    RInv r → n ≤ 16 → n ≤ 8 * fuel + r.bitLength →
    r.cursor + n ≤ 8 * r.bytes.length →
    ∃ r', BitReader.ensureBitsGo n fuel r = .ok r' ∧ RInv r' ∧
      r'.bytes = r.bytes ∧ r'.cursor = r.cursor ∧ n ≤ r'.bitLength := by
  intro fuel
  induction fuel with
  | zero =>
    intro r n hinv hn hfe hav
    exact ⟨r, rfl, hinv, rfl, rfl, by omega⟩
  | succ fuel ih =>
    intro r n hinv hn hfe hav
    obtain ⟨hB, h1, h2, h3, h4, h5⟩ := hinv
    rw [BitReader.ensureBitsGo]
    by_cases hlt : r.bitLength < n
    · rw [if_pos hlt]
      rw [cursor_eq] at hav
      have hoff : ¬ r.bytes.length ≤ r.offset := by
        intro hcon
        omega
      rw [if_neg hoff]
      have hbyte : r.bytes.getD r.offset 0 < 256 := bytes_getD_lt hB r.offset
      have hmodlen : r.bitLength % 32 = r.bitLength := Nat.mod_eq_of_lt (by omega)
      have hadd : r.bitBuffer ||| (r.bytes.getD r.offset 0 <<< r.bitLength)
          = r.bitBuffer + r.bytes.getD r.offset 0 * 2 ^ r.bitLength :=
        lor_shiftLeft_eq_add _ _ h1
      have hexp : (2:Nat) ^ (r.bitLength + 8) = 2 ^ r.bitLength * 256 := by
        rw [pow_add]
        norm_num
      have hmul : r.bytes.getD r.offset 0 * 2 ^ r.bitLength ≤ 255 * 2 ^ r.bitLength :=
        Nat.mul_le_mul_right _ (by omega)
      have hlt2 : r.bitBuffer + r.bytes.getD r.offset 0 * 2 ^ r.bitLength
          < 2 ^ (r.bitLength + 8) := by
        omega
      have hmod : (r.bitBuffer + r.bytes.getD r.offset 0 * 2 ^ r.bitLength) % 4294967296
          = r.bitBuffer + r.bytes.getD r.offset 0 * 2 ^ r.bitLength := by
        apply Nat.mod_eq_of_lt
        have hle32 : (2:Nat) ^ (r.bitLength + 8) ≤ 2 ^ 32 :=
          Nat.pow_le_pow_right (by omega) (by omega)
        have h32 : (2:Nat) ^ 32 = 4294967296 := by norm_num
        omega
      have hq : (r.bitBuffer + r.bytes.getD r.offset 0 * 2 ^ r.bitLength)
            / 2 ^ r.bitLength = r.bytes.getD r.offset 0 := by
        rw [Nat.add_mul_div_right _ _ (Nat.two_pow_pos _), Nat.div_eq_of_lt h1]
        omega
      have hsplit : natBits (r.bitLength + 8)
          (r.bitBuffer + r.bytes.getD r.offset 0 * 2 ^ r.bitLength)
          = natBits r.bitLength r.bitBuffer ++ natBits 8 (r.bytes.getD r.offset 0) := by
        rw [natBits_add]
        congr 1
        · have hmm2 : (r.bitBuffer + r.bytes.getD r.offset 0 * 2 ^ r.bitLength)
              % 2 ^ r.bitLength = r.bitBuffer := by
            rw [Nat.add_mul_mod_self_right, Nat.mod_eq_of_lt h1]
          rw [← natBits_mod r.bitLength
            (r.bitBuffer + r.bytes.getD r.offset 0 * 2 ^ r.bitLength), hmm2]
        · rw [hq]
      have hnext : (bytesBits r.bytes).drop (8 * r.offset)
          = natBits 8 (r.bytes.getD r.offset 0) ++
              bytesBits (r.bytes.drop (r.offset + 1)) := by
        rw [bytesBits_drop, List.drop_eq_getElem_cons (show r.offset < r.bytes.length
          from by omega), List.getD_eq_getElem r.bytes 0 (show r.offset < r.bytes.length
          from by omega)]
        rfl
      have hstream : natBits (r.bitLength + 8)
          (r.bitBuffer + r.bytes.getD r.offset 0 * 2 ^ r.bitLength)
          = ((bytesBits r.bytes).drop (8 * (r.offset + 1) - (r.bitLength + 8))).take
              (r.bitLength + 8) := by
        rw [hsplit, show 8 * (r.offset + 1) - (r.bitLength + 8)
            = 8 * r.offset - r.bitLength from by omega, List.take_add, ← h5,
          List.drop_drop, show 8 * r.offset - r.bitLength + r.bitLength = 8 * r.offset
            from by omega, hnext, List.take_left' (natBits_length 8 _)]
      have hbuf : (r.bitBuffer ||| (r.bytes.getD r.offset 0 <<< (r.bitLength % 32)))
          % 4294967296 = r.bitBuffer + r.bytes.getD r.offset 0 * 2 ^ r.bitLength := by
        rw [hmodlen, hadd, hmod]
      have hrec : RInv ⟨r.bytes,
          (r.bitBuffer ||| (r.bytes.getD r.offset 0 <<< (r.bitLength % 32))) % 4294967296,
          r.bitLength + 8, r.offset + 1⟩ := by
        refine ⟨hB, ?_, (by omega : r.bitLength + 8 < 24),
          (by omega : r.offset + 1 ≤ r.bytes.length),
          (by omega : r.bitLength + 8 ≤ 8 * (r.offset + 1)), ?_⟩
        · show (r.bitBuffer ||| (r.bytes.getD r.offset 0 <<< (r.bitLength % 32)))
              % 4294967296 < 2 ^ (r.bitLength + 8)
          omega
        · show natBits (r.bitLength + 8)
              ((r.bitBuffer ||| (r.bytes.getD r.offset 0 <<< (r.bitLength % 32)))
                % 4294967296)
            = ((bytesBits r.bytes).drop (8 * (r.offset + 1) - (r.bitLength + 8))).take
                (r.bitLength + 8)
          rw [hbuf]
          exact hstream
      obtain ⟨r', he, hinv', hby, hcur, hge⟩ := ih
        ⟨r.bytes,
          (r.bitBuffer ||| (r.bytes.getD r.offset 0 <<< (r.bitLength % 32))) % 4294967296,
          r.bitLength + 8, r.offset + 1⟩ n hrec hn
        (by omega : n ≤ 8 * fuel + (r.bitLength + 8))
        (by
          show 8 * (r.offset + 1) - (r.bitLength + 8) + n ≤ 8 * r.bytes.length
          omega)
      refine ⟨r', he, hinv', hby, ?_, hge⟩
      rw [hcur, cursor_eq, cursor_eq]
      show 8 * (r.offset + 1) - (r.bitLength + 8) = 8 * r.offset - r.bitLength
      omega
    · rw [if_neg hlt]
      exact ⟨r, rfl, ⟨hB, h1, h2, h3, h4, h5⟩, rfl, rfl, by omega⟩

theorem ensureBits_bits (r : BitReader) (n : Nat) (hinv : RInv r) (hn : n ≤ 16)
    (hav : r.cursor + n ≤ 8 * r.bytes.length) :
    ∃ r', r.ensureBits n = .ok r' ∧ RInv r' ∧
      r'.bytes = r.bytes ∧ r'.cursor = r.cursor ∧ n ≤ r'.bitLength :=
  ensureBitsGo_bits (n + 1) r n hinv hn (by omega) hav

/-- The low `n` buffered bits are the `n` stream bits at the cursor. -/
theorem bitBuffer_low_bits (r1 : BitReader) (n : Nat) (hinv1 : RInv r1)
    (hn32 : n < 32) (hge : n ≤ r1.bitLength) :
    r1.bitBuffer &&& jsMask n
      = bitsToNat (((bytesBits r1.bytes).drop r1.cursor).take n) := by
  obtain ⟨hB1, h11, h12, h13, h14, h15⟩ := hinv1
  rw [jsMask_eq n hn32, Nat.and_pow_two_sub_one_eq_mod, ← bitsToNat_natBits]
  congr 1
  rw [← natBits_take n r1.bitLength r1.bitBuffer hge, h15, cursor_eq,
    List.take_take, Nat.min_eq_left hge]

/-- `readBits` returns the `n` stream bits at the cursor and advances it. -/
theorem readBits_bits (r : BitReader) (n : Nat) (hinv : RInv r) (hn : n ≤ 16)
    (hav : r.cursor + n ≤ 8 * r.bytes.length) :
    ∃ r', r.readBits n = .ok
        (bitsToNat (((bytesBits r.bytes).drop r.cursor).take n), r') ∧
      RInv r' ∧ r'.bytes = r.bytes ∧ r'.cursor = r.cursor + n := by
  obtain ⟨r1, he, hinv1, hby, hcur, hge⟩ := ensureBits_bits r n hinv hn hav
  have hval := bitBuffer_low_bits r1 n hinv1 (by omega) hge
  rw [hby, hcur] at hval
  obtain ⟨hB1, h11, h12, h13, h14, h15⟩ := hinv1
  have hmodn : n % 32 = n := Nat.mod_eq_of_lt (by omega)
  have hpow : 2 ^ (r1.bitLength - n) * 2 ^ n = 2 ^ r1.bitLength := by
    rw [← pow_add, show r1.bitLength - n + n = r1.bitLength from by omega]
  have hpow2 : 2 ^ n * 2 ^ (r1.bitLength - n) = 2 ^ r1.bitLength := by
    rw [← pow_add, show n + (r1.bitLength - n) = r1.bitLength from by omega]
  have hshr : r1.bitBuffer >>> (n % 32) = r1.bitBuffer / 2 ^ n := by
    rw [hmodn, Nat.shiftRight_eq_div_pow]
  have hlt' : r1.bitBuffer / 2 ^ n < 2 ^ (r1.bitLength - n) :=
    Nat.div_lt_of_lt_mul (by omega)
  have hstr : natBits (r1.bitLength - n) (r1.bitBuffer / 2 ^ n)
      = ((bytesBits r1.bytes).drop
          (8 * r1.offset - (r1.bitLength - n))).take (r1.bitLength - n) := by
    rw [← natBits_drop n r1.bitLength r1.bitBuffer hge, h15, List.drop_take,
      List.drop_drop,
      show 8 * r1.offset - r1.bitLength + n = 8 * r1.offset - (r1.bitLength - n)
        from by omega]
  refine ⟨⟨r1.bytes, r1.bitBuffer >>> (n % 32), r1.bitLength - n, r1.offset⟩,
    ?_, ?_, hby, ?_⟩
  · simp only [BitReader.readBits, he, except_bind_ok]
    rw [hval]
  · refine ⟨hB1, ?_, (by omega : r1.bitLength - n < 24), h13,
      (by omega : r1.bitLength - n ≤ 8 * r1.offset), ?_⟩
    · show r1.bitBuffer >>> (n % 32) < 2 ^ (r1.bitLength - n)
      rw [hshr]
      exact hlt'
    · show natBits (r1.bitLength - n) (r1.bitBuffer >>> (n % 32))
        = ((bytesBits r1.bytes).drop
            (8 * r1.offset - (r1.bitLength - n))).take (r1.bitLength - n)
      rw [hshr]
      exact hstr
  · show 8 * r1.offset - (r1.bitLength - n) = r.cursor + n
    rw [← hcur, cursor_eq]
    omega

/-- `peekBits` returns the same `n` stream bits without moving the cursor. -/
theorem peekBits_bits (r : BitReader) (n : Nat) (hinv : RInv r) (hn : n ≤ 16)
    (hav : r.cursor + n ≤ 8 * r.bytes.length) :
    ∃ r', r.peekBits n = .ok
        (bitsToNat (((bytesBits r.bytes).drop r.cursor).take n), r') ∧
      RInv r' ∧ r'.bytes = r.bytes ∧ r'.cursor = r.cursor := by
  obtain ⟨r1, he, hinv1, hby, hcur, hge⟩ := ensureBits_bits r n hinv hn hav
  have hval := bitBuffer_low_bits r1 n hinv1 (by omega) hge
  rw [hby, hcur] at hval
  refine ⟨r1, ?_, hinv1, hby, hcur⟩
  simp only [BitReader.peekBits, he, except_bind_ok]
  rw [hval]

/-! ## Fixed-Huffman decode-table facts (finite checks) -/

set_option maxRecDepth 10000
set_option maxHeartbeats 8000000

/-- All 7-bit fixed codes (symbols 256–279) round-trip through the short
decode table. -/
theorem fixed_tables_short : ∀ s, 256 ≤ s → s ≤ 279 →
    fixedLiteralLengths s = 7 ∧ fixedLiteralCodes s < 128 ∧
    fixedLiteralShortLength (fixedLiteralCodes s) = 7 ∧
    fixedLiteralShortDecode (fixedLiteralCodes s) = (s : Int) := by decide

theorem fixed_tables_shortmiss_a : ∀ s ≤ 143, 8 ≤ fixedLiteralLengths s →
    fixedLiteralShortLength (fixedLiteralCodes s % 128) = 0 := by decide

theorem fixed_tables_shortmiss_b : ∀ s, 144 ≤ s → s ≤ 285 →
    8 ≤ fixedLiteralLengths s →
    fixedLiteralShortLength (fixedLiteralCodes s % 128) = 0 := by decide

/-- No 7-bit window that starts an 8/9-bit code hits the short table. -/
theorem fixed_tables_shortmiss : ∀ s ≤ 285, 8 ≤ fixedLiteralLengths s →
    fixedLiteralShortLength (fixedLiteralCodes s % 128) = 0 := by
  intro s hs h8
  by_cases h : s ≤ 143
  · exact fixed_tables_shortmiss_a s h h8
  · exact fixed_tables_shortmiss_b s (by omega) hs h8

theorem fixed_tables_long_a : ∀ s ≤ 71, 8 ≤ fixedLiteralLengths s →
    ∀ j < 2 ^ (9 - fixedLiteralLengths s),
      fixedLiteralDecodeLength (fixedLiteralCodes s + 2 ^ fixedLiteralLengths s * j)
          = fixedLiteralLengths s ∧
        fixedLiteralDecode (fixedLiteralCodes s + 2 ^ fixedLiteralLengths s * j)
          = (s : Int) := by decide

theorem fixed_tables_long_b : ∀ s, 72 ≤ s → s ≤ 143 →
    8 ≤ fixedLiteralLengths s →
    ∀ j < 2 ^ (9 - fixedLiteralLengths s),
      fixedLiteralDecodeLength (fixedLiteralCodes s + 2 ^ fixedLiteralLengths s * j)
          = fixedLiteralLengths s ∧
        fixedLiteralDecode (fixedLiteralCodes s + 2 ^ fixedLiteralLengths s * j)
          = (s : Int) := by decide

theorem fixed_tables_long_c : ∀ s, 144 ≤ s → s ≤ 215 →
    8 ≤ fixedLiteralLengths s →
    ∀ j < 2 ^ (9 - fixedLiteralLengths s),
      fixedLiteralDecodeLength (fixedLiteralCodes s + 2 ^ fixedLiteralLengths s * j)
          = fixedLiteralLengths s ∧
        fixedLiteralDecode (fixedLiteralCodes s + 2 ^ fixedLiteralLengths s * j)
          = (s : Int) := by decide

theorem fixed_tables_long_d : ∀ s, 216 ≤ s → s ≤ 285 →
    8 ≤ fixedLiteralLengths s →
    ∀ j < 2 ^ (9 - fixedLiteralLengths s),
      fixedLiteralDecodeLength (fixedLiteralCodes s + 2 ^ fixedLiteralLengths s * j)
          = fixedLiteralLengths s ∧
        fixedLiteralDecode (fixedLiteralCodes s + 2 ^ fixedLiteralLengths s * j)
          = (s : Int) := by decide

/-- Every 9-bit window starting with an 8/9-bit code decodes to its symbol in
the full table. -/
theorem fixed_tables_long : ∀ s ≤ 285, 8 ≤ fixedLiteralLengths s →
    ∀ j < 2 ^ (9 - fixedLiteralLengths s),
      fixedLiteralDecodeLength (fixedLiteralCodes s + 2 ^ fixedLiteralLengths s * j)
          = fixedLiteralLengths s ∧
        fixedLiteralDecode (fixedLiteralCodes s + 2 ^ fixedLiteralLengths s * j)
          = (s : Int) := by
  intro s hs h8
  by_cases h1 : s ≤ 71
  · exact fixed_tables_long_a s h1 h8
  by_cases h2 : s ≤ 143
  · exact fixed_tables_long_b s (by omega) h2 h8
  by_cases h3 : s ≤ 215
  · exact fixed_tables_long_c s (by omega) h3 h8
  · exact fixed_tables_long_d s (by omega) hs h8

/-- Shape facts about the fixed literal/length code table. -/
theorem fixed_codes_bound : ∀ s ≤ 287,
    fixedLiteralCodes s < 2 ^ fixedLiteralLengths s ∧ 7 ≤ fixedLiteralLengths s ∧
      fixedLiteralLengths s ≤ 9 ∧
      (fixedLiteralLengths s = 7 → 256 ≤ s ∧ s ≤ 279) := by decide

/-- The 5-bit fixed distance codes round-trip through the distance table. -/
theorem fixed_tables_dist : ∀ i < 30,
    fixedDistanceCodes i < 32 ∧
      fixedDistanceDecodeLength (fixedDistanceCodes i) = 5 ∧
      fixedDistanceDecode (fixedDistanceCodes i) = (i : Int) := by decide

theorem eob_code : fixedLiteralCodes 256 = 0 ∧ fixedLiteralLengths 256 = 7 := by
  decide

/-! ## Symbol-level decode lemmas -/

theorem RInv_cursor_le (r : BitReader) (hinv : RInv r) :
    r.cursor ≤ 8 * r.bytes.length := by
  obtain ⟨_, _, _, h3, h4, _⟩ := hinv
  rw [cursor_eq]
  omega

theorem take_push (l : List Nat) (p : Nat) (hp : p < l.length) :
    l.take p ++ [l.getD p 0] = l.take (p + 1) := by
  rw [List.getD_eq_getElem l 0 hp, ← List.take_concat_get l p hp,
    List.concat_eq_append]

theorem getD_take (l : List Nat) (n m : Nat) (h : m < n) :
    (l.take n).getD m 0 = l.getD m 0 := by
  rw [List.getD_eq_getElem?_getD, List.getElem?_take, if_pos h,
    List.getD_eq_getElem?_getD]

/-- The conditional extra-bits read returns the encoded extra value. -/
theorem readExtra_bits (r : BitReader) (n e : Nat) (hinv : RInv r) (hn : n ≤ 13)
    (he : e < 2 ^ n)
    (hbits : ((bytesBits r.bytes).drop r.cursor).take n = natBits n e)
    (hav : r.cursor + n ≤ 8 * r.bytes.length) :
    ∃ r', readExtra r n = .ok (e, r') ∧ RInv r' ∧ r'.bytes = r.bytes ∧
      r'.cursor = r.cursor + n := by
  by_cases h0 : n > 0
  · obtain ⟨r', heq, hinv', hby, hcur⟩ := readBits_bits r n hinv (by omega) hav
    refine ⟨r', ?_, hinv', hby, hcur⟩
    rw [readExtra, if_pos h0, heq, hbits, bitsToNat_natBits, Nat.mod_eq_of_lt he]
  · have hn0 : n = 0 := by omega
    subst hn0
    refine ⟨r, ?_, hinv, rfl, by omega⟩
    rw [readExtra, if_neg h0, show e = 0 from by omega]

/-- Decoding a 5-bit fixed distance code. -/
theorem readFixedDistance_spec (r : BitReader) (i : Nat) (hi : i < 30)
    (hinv : RInv r)
    (hbits : ((bytesBits r.bytes).drop r.cursor).take 5
      = natBits 5 (fixedDistanceCodes i))
    (hav : r.cursor + 5 ≤ 8 * r.bytes.length) :
    ∃ r', readFixedDistance r = .ok (i, r') ∧ RInv r' ∧ r'.bytes = r.bytes ∧
      r'.cursor = r.cursor + 5 := by
  obtain ⟨hc32, hdl, hdd⟩ := fixed_tables_dist i hi
  obtain ⟨r1, hpeek, hinv1, hby1, hcur1⟩ := peekBits_bits r 5 hinv (by omega) hav
  have hval : bitsToNat (((bytesBits r.bytes).drop r.cursor).take 5)
      = fixedDistanceCodes i := by
    have h32 : (2:Nat) ^ 5 = 32 := by norm_num
    rw [hbits, bitsToNat_natBits, Nat.mod_eq_of_lt (by omega)]
  obtain ⟨r2, hread, hinv2, hby2, hcur2⟩ := readBits_bits r1 5 hinv1 (by omega)
    (by rw [hby1, hcur1]; omega)
  refine ⟨r2, ?_, hinv2, by rw [hby2, hby1], by rw [hcur2, hcur1]⟩
  simp only [readFixedDistance, hpeek, except_bind_ok]
  rw [hval, hdd, hdl]
  rw [if_neg (by omega : ¬ (((i:Nat) : Int) < 0 ∨ (5:Nat) = 0))]
  simp only [hread, except_bind_ok]
  rw [Int.toNat_natCast]

/-- Decoding any emitted fixed literal/length symbol: with the symbol's code
at the cursor, `readFixedLiteral` returns the symbol and consumes exactly its
code length. -/
theorem readFixedLiteral_spec (r : BitReader) (s : Nat) (hs : s ≤ 285)
    (hinv : RInv r)
    (hbits : ((bytesBits r.bytes).drop r.cursor).take (fixedLiteralLengths s)
      = natBits (fixedLiteralLengths s) (fixedLiteralCodes s))
    (hav7 : r.cursor + 7 ≤ 8 * r.bytes.length)
    (hav9 : 8 ≤ fixedLiteralLengths s → r.cursor + 9 ≤ 8 * r.bytes.length) :
    ∃ r', readFixedLiteral r = .ok (s, r') ∧ RInv r' ∧ r'.bytes = r.bytes ∧
      r'.cursor = r.cursor + fixedLiteralLengths s := by
  obtain ⟨hcb, h7le, hle9, h7iff⟩ := fixed_codes_bound s (by omega)
  by_cases h7 : fixedLiteralLengths s = 7
  · obtain ⟨hs1, hs2⟩ := h7iff h7
    obtain ⟨hlen7, hcode128, hshortlen, hshortdec⟩ := fixed_tables_short s hs1 hs2
    obtain ⟨r1, hpeek, hinv1, hby1, hcur1⟩ := peekBits_bits r 7 hinv (by omega) hav7
    have hval : bitsToNat (((bytesBits r.bytes).drop r.cursor).take 7)
        = fixedLiteralCodes s := by
      rw [show (7:Nat) = fixedLiteralLengths s from h7.symm, hbits, bitsToNat_natBits,
        Nat.mod_eq_of_lt hcb]
    obtain ⟨r2, hread, hinv2, hby2, hcur2⟩ := readBits_bits r1 7 hinv1 (by omega)
      (by rw [hby1, hcur1]; omega)
    refine ⟨r2, ?_, hinv2, by rw [hby2, hby1], by rw [hcur2, hcur1, h7]⟩
    simp only [readFixedLiteral, FIXED_LITERAL_SHORT_BITS, FIXED_LITERAL_MAX_BITS,
      hpeek, except_bind_ok]
    rw [hval, hshortlen]
    rw [if_pos (by omega : (7:Nat) ≠ 0)]
    simp only [hread, except_bind_ok]
    rw [hshortdec, Int.toNat_natCast]
  · have h8 : 8 ≤ fixedLiteralLengths s := by omega
    obtain ⟨r1, hpeek, hinv1, hby1, hcur1⟩ := peekBits_bits r 7 hinv (by omega) hav7
    have hval7 : bitsToNat (((bytesBits r.bytes).drop r.cursor).take 7)
        = fixedLiteralCodes s % 128 := by
      rw [show ((bytesBits r.bytes).drop r.cursor).take 7
          = (((bytesBits r.bytes).drop r.cursor).take (fixedLiteralLengths s)).take 7
        from by rw [List.take_take, Nat.min_eq_left (by omega)], hbits,
        natBits_take 7 _ _ (by omega), bitsToNat_natBits]
      norm_num
    have hmiss := fixed_tables_shortmiss s hs h8
    obtain ⟨r2, hpeek9, hinv2, hby2, hcur2⟩ := peekBits_bits r1 9 hinv1 (by omega)
      (by rw [hby1, hcur1]; exact hav9 h8)
    rw [hby1, hcur1] at hpeek9
    have hlen9 : ((bytesBits r.bytes).drop r.cursor).take 9
        = natBits (fixedLiteralLengths s) (fixedLiteralCodes s) ++
          (((bytesBits r.bytes).drop (r.cursor + fixedLiteralLengths s)).take
            (9 - fixedLiteralLengths s)) := by
      conv_lhs => rw [show (9:Nat) = fixedLiteralLengths s + (9 - fixedLiteralLengths s)
          from by omega]
      rw [List.take_add, hbits, List.drop_drop]
    have hjlt : bitsToNat (((bytesBits r.bytes).drop
          (r.cursor + fixedLiteralLengths s)).take (9 - fixedLiteralLengths s))
        < 2 ^ (9 - fixedLiteralLengths s) := by
      have hbl := bitsToNat_lt (((bytesBits r.bytes).drop
        (r.cursor + fixedLiteralLengths s)).take (9 - fixedLiteralLengths s))
      have hlen : (((bytesBits r.bytes).drop
          (r.cursor + fixedLiteralLengths s)).take (9 - fixedLiteralLengths s)).length
          ≤ 9 - fixedLiteralLengths s := by
        rw [List.length_take]
        omega
      have hpow := Nat.pow_le_pow_right (show 1 ≤ 2 by omega) hlen
      omega
    have hval9 : bitsToNat (((bytesBits r.bytes).drop r.cursor).take 9)
        = fixedLiteralCodes s + 2 ^ fixedLiteralLengths s *
            bitsToNat (((bytesBits r.bytes).drop
              (r.cursor + fixedLiteralLengths s)).take (9 - fixedLiteralLengths s)) := by
      rw [hlen9, bitsToNat_append, natBits_length, bitsToNat_natBits,
        Nat.mod_eq_of_lt hcb]
    obtain ⟨hdl, hdd⟩ := fixed_tables_long s hs h8 _ hjlt
    obtain ⟨r3, hread, hinv3, hby3, hcur3⟩ := readBits_bits r2
      (fixedLiteralLengths s) hinv2 (by omega)
      (by
        rw [hby2, hby1, hcur2, hcur1]
        have := hav9 h8
        omega)
    refine ⟨r3, ?_, hinv3, by rw [hby3, hby2, hby1], by rw [hcur3, hcur2, hcur1]⟩
    simp only [readFixedLiteral, FIXED_LITERAL_SHORT_BITS, FIXED_LITERAL_MAX_BITS,
      hpeek, except_bind_ok]
    rw [hval7, hmiss]
    rw [if_neg (by omega : ¬ (0:Nat) ≠ 0)]
    simp only [hpeek9, except_bind_ok]
    rw [hval9, hdd, hdl]
    rw [if_neg (by omega : ¬ (((s:Nat) : Int) < 0 ∨ fixedLiteralLengths s = 0))]
    simp only [hread, except_bind_ok]
    rw [Int.toNat_natCast]

/-! ## Bit encodings of tokens -/

/-- The bits `writeToken` emits for a match token. -/
def matchBits (L D : Nat) : List Bool :=
  match findLengthCode L, findDistanceCode D with
  | .ok info, .ok dinfo =>
    natBits (fixedLiteralLengths info.code) (fixedLiteralCodes info.code) ++
      natBits info.extraBits (L - info.base) ++
      natBits 5 (fixedDistanceCodes dinfo.code) ++
      natBits dinfo.extraBits (D - dinfo.base)
  | _, _ => []

/-- The bits `writeToken` emits for a token. -/
def tokenBits : Token → List Bool
  | .literal v => natBits (fixedLiteralLengths v) (fixedLiteralCodes v)
  | .matchTok L D => matchBits L D

/-- The bits `writeTokens` emits for a token list. -/
def tokensBits : List Token → List Bool
  | [] => []
  | t :: ts => tokenBits t ++ tokensBits ts

/-- `writeToken` appends exactly `tokenBits` to the stream. -/
theorem writeToken_bits (w : BitWriter) (t : Token) (hinv : WInv w)
    (ht : (∃ v, t = Token.literal v ∧ v < 256) ∨
      ∃ L D, t = Token.matchTok L D ∧ 3 ≤ L ∧ L ≤ 258 ∧ 1 ≤ D ∧ D ≤ 32768) :
    ∃ w', writeToken w t = .ok w' ∧ WInv w' ∧
      wBits w' = wBits w ++ tokenBits t := by
  rcases ht with ⟨v, rfl, hv⟩ | ⟨L, D, rfl, h3, h258, h1, h32768⟩
  · obtain ⟨hinv', heq⟩ := writeBits_spec w (fixedLiteralCodes v)
      (fixedLiteralLengths v) hinv
      (by have := (fixed_codes_bound v (by omega)).2.2.1; omega)
    refine ⟨_, rfl, hinv', ?_⟩
    rw [heq]
    rfl
  · obtain ⟨info, hinfo, hc257, hc285, hbase, hextra, hble, hlb, he5⟩ :=
      findLengthCode_spec L h3 h258
    obtain ⟨dinfo, hdinfo, hdc29, hdbase, hdextra, hdble, hdlb, hde13⟩ :=
      findDistanceCode_spec D h1 h32768
    obtain ⟨hi1, he1⟩ := writeBits_spec w (fixedLiteralCodes info.code)
      (fixedLiteralLengths info.code) hinv
      (by have := (fixed_codes_bound info.code (by omega)).2.2.1; omega)
    have hstep2 : WInv (if info.extraBits > 0 then
          (w.writeBits (fixedLiteralCodes info.code)
            (fixedLiteralLengths info.code)).writeBits (L - info.base) info.extraBits
        else w.writeBits (fixedLiteralCodes info.code)
          (fixedLiteralLengths info.code)) ∧
        wBits (if info.extraBits > 0 then
          (w.writeBits (fixedLiteralCodes info.code)
            (fixedLiteralLengths info.code)).writeBits (L - info.base) info.extraBits
        else w.writeBits (fixedLiteralCodes info.code)
          (fixedLiteralLengths info.code))
          = wBits (w.writeBits (fixedLiteralCodes info.code)
              (fixedLiteralLengths info.code)) ++
            natBits info.extraBits (L - info.base) := by
      by_cases hgt : info.extraBits > 0
      · rw [if_pos hgt]
        exact writeBits_spec _ _ _ hi1 (by omega)
      · rw [if_neg hgt]
        rw [show info.extraBits = 0 from by omega]
        exact ⟨hi1, by simp [natBits]⟩
    obtain ⟨hi2, he2⟩ := hstep2
    obtain ⟨hi3, he3⟩ := writeBits_spec _ (fixedDistanceCodes dinfo.code) 5 hi2
      (by omega)
    have hstep4 : ∀ w3 : BitWriter, WInv w3 →
        WInv (if dinfo.extraBits > 0 then
            w3.writeBits (D - dinfo.base) dinfo.extraBits else w3) ∧
        wBits (if dinfo.extraBits > 0 then
            w3.writeBits (D - dinfo.base) dinfo.extraBits else w3)
          = wBits w3 ++ natBits dinfo.extraBits (D - dinfo.base) := by
      intro w3 hw3
      by_cases hgt : dinfo.extraBits > 0
      · rw [if_pos hgt]
        exact writeBits_spec _ _ _ hw3 (by omega)
      · rw [if_neg hgt]
        rw [show dinfo.extraBits = 0 from by omega]
        exact ⟨hw3, by simp [natBits]⟩
    obtain ⟨hi4, he4⟩ := hstep4 _ hi3
    rcases hw : writeToken w (Token.matchTok L D) with e | wfin
    · simp only [writeToken, hinfo, hdinfo, except_bind_ok] at hw
      exact Except.noConfusion hw
    · simp only [writeToken, hinfo, hdinfo, except_bind_ok, Except.ok.injEq] at hw
      subst hw
      refine ⟨_, rfl, hi4, ?_⟩
      rw [he4, he3, he2, he1]
      show _ = wBits w ++ tokenBits (Token.matchTok L D)
      rw [show tokenBits (Token.matchTok L D) = matchBits L D from rfl]
      simp only [matchBits, hinfo, hdinfo]
      simp [List.append_assoc]

/-- `writeTokens` appends exactly `tokensBits` to the stream. -/
theorem writeTokens_bits : ∀ (ts : List Token) (w : BitWriter), WInv w →
    (∀ t ∈ ts, (∃ v, t = Token.literal v ∧ v < 256) ∨
      ∃ L D, t = Token.matchTok L D ∧ 3 ≤ L ∧ L ≤ 258 ∧ 1 ≤ D ∧ D ≤ 32768) →
    ∃ w', writeTokens w ts = .ok w' ∧ WInv w' ∧
      wBits w' = wBits w ++ tokensBits ts := by
  intro ts
  induction ts with
  | nil =>
    intro w hinv h
    exact ⟨w, rfl, hinv, by simp [tokensBits]⟩
  | cons t ts ih =>
    intro w hinv h
    obtain ⟨w1, hw1, hinv1, he1⟩ := writeToken_bits w t hinv
      (h t (List.mem_cons_self t ts))
    obtain ⟨w2, hw2, hinv2, he2⟩ := ih w1 hinv1
      (fun u hu => h u (List.mem_cons_of_mem t hu))
    refine ⟨w2, ?_, hinv2, ?_⟩
    · rw [writeTokens, hw1]
      simpa using hw2
    · rw [he2, he1, tokensBits, List.append_assoc]

/-- Aligning before `toUint8Array` does not change the output. -/
theorem toUint8Array_align (w : BitWriter) :
    w.alignToByte.toUint8Array = w.toUint8Array := by
  by_cases h : 0 < w.bitLength
  · simp [BitWriter.alignToByte, BitWriter.toUint8Array, h]
  · simp [BitWriter.alignToByte, BitWriter.toUint8Array, h]

/-- The full deflate stream: final-block flag, fixed-block type, the token
encodings, the end-of-block code, and zero padding to a whole byte. -/
theorem deflateFixed_bits (data : List Nat) (hb : Bytes data) :
    ∃ out, deflateFixed data = .ok out ∧ Bytes out ∧
      ∃ pad, pad < 8 ∧
        bytesBits out = natBits 1 1 ++ natBits 2 1 ++
          tokensBits (collectTokens data) ++ natBits 7 0 ++
          List.replicate pad false := by
  have hmem := ValidFrom_mem data hb _ 0 (collectTokens_valid data hb)
  obtain ⟨hi1, he1⟩ := writeBits_spec BitWriter.empty 1 1 WInv_empty (by omega)
  obtain ⟨hi2, he2⟩ := writeBits_spec (BitWriter.empty.writeBits 1 1) 1 2 hi1
    (by omega)
  obtain ⟨w3, hw3, hi3, he3⟩ := writeTokens_bits (collectTokens data)
    ((BitWriter.empty.writeBits 1 1).writeBits 1 2) hi2 hmem
  obtain ⟨hi4, he4⟩ := writeBits_spec w3 (fixedLiteralCodes 256)
    (fixedLiteralLengths 256) hi3 (by rw [eob_code.2]; omega)
  obtain ⟨hbytes, hbits⟩ := toUint8Array_spec
    (w3.writeBits (fixedLiteralCodes 256) (fixedLiteralLengths 256)) hi4
  refine ⟨(w3.writeBits (fixedLiteralCodes 256)
      (fixedLiteralLengths 256)).toUint8Array, ?_, hbytes,
    (8 - (w3.writeBits (fixedLiteralCodes 256)
      (fixedLiteralLengths 256)).bitLength) % 8, Nat.mod_lt _ (by omega), ?_⟩
  · simp only [deflateFixed, hw3, except_bind_ok]
    rw [toUint8Array_align]
  · rw [hbits, he4, he3, he2, he1, wBits_empty, eob_code.1, eob_code.2]
    simp [List.append_assoc]

/-! ## The symbol loop decodes an encoded token stream -/

theorem drop_cursor_take (S : List Bool) (c k : Nat) (A R : List Bool)
    (h : S.drop c = A ++ R) (hk : A.length = k) : (S.drop c).take k = A := by
  rw [h, List.take_left' hk]

theorem drop_cursor_step (S : List Bool) (c k : Nat) (A R : List Bool)
    (h : S.drop c = A ++ R) (hk : A.length = k) : S.drop (c + k) = R := by
  rw [← List.drop_drop, h, List.drop_left' hk]

/-- The back-reference copy of a well-formed match extends the decoded prefix
by the match. -/
theorem matchCopyGo_take (data : List Nat) (pos D L : Nat)
    (hD1 : 1 ≤ D) (hDpos : D ≤ pos) (hlen : pos + L ≤ data.length)
    (hcopy : ∀ m, m < L → data.getD (pos + m) 0 = data.getD (pos - D + m) 0) :
    ∀ (k i : Nat), i + k = L →
      matchCopyGo (pos - D) k (data.take (pos + i)) i = data.take (pos + L) := by
  intro k
  induction k with
  | zero =>
    intro i hi
    show data.take (pos + i) = data.take (pos + L)
    rw [show i = L from by omega]
  | succ k ih =>
    intro i hi
    rw [matchCopyGo]
    have hlt : pos + i < data.length := by omega
    have hget : (data.take (pos + i)).getD (pos - D + i) 0 = data.getD (pos + i) 0 := by
      rw [getD_take data (pos + i) (pos - D + i) (by omega), ← hcopy i (by omega)]
    rw [hget, take_push data (pos + i) hlt]
    have hstep := ih (i + 1) (by omega)
    rw [show pos + i + 1 = pos + (i + 1) from by omega]
    exact hstep

theorem matchCopy_take (data : List Nat) (pos L D : Nat) (hg : GoodM data pos L D) :
    matchCopy (data.take pos) (pos - D) 0 L = data.take (pos + L) := by
  obtain ⟨h3, hlen, h258, hD1, hD32, hDpos, hcopy⟩ := hg
  have hstep := matchCopyGo_take data pos D L hD1 hDpos hlen
    (fun m hm => hcopy m hm) L 0 (by omega)
  rw [matchCopy]
  simpa using hstep

/-- Decoding a well-formed encoded token stream followed by the end-of-block
code reconstructs the data and consumes exactly the encoding. -/
theorem inflateItems_decode (data : List Nat) (hb : Bytes data) :
    ∀ (ts : List Token) (fuel : Nat) (pos : Nat) (r : BitReader) (R : List Bool),
      ValidFrom data pos ts →
      ts.length < fuel →
      RInv r →
      (bytesBits r.bytes).drop r.cursor = tokensBits ts ++ natBits 7 0 ++ R →
      ∃ r', inflateItems r.bytes fuel r (data.take pos) = .ok (data, r') ∧
        RInv r' ∧ r'.bytes = r.bytes ∧
        r'.cursor = r.cursor + (tokensBits ts).length + 7 := by
  intro ts
  induction ts with
  | nil =>
    intro fuel pos r R hvf hfuel hinv hstream
    cases fuel with
    | zero => simp at hfuel
    | succ fuel =>
      have hpos : pos = data.length := hvf
      simp only [tokensBits, List.nil_append] at hstream
      have hcle := RInv_cursor_le r hinv
      have hT := congrArg List.length hstream
      rw [List.length_drop, bytesBits_length, List.length_append,
        natBits_length] at hT
      obtain ⟨r1, hread, hinv1, hby1, hcur1⟩ := readFixedLiteral_spec r 256
        (by omega) hinv
        (by
          rw [eob_code.1, eob_code.2]
          exact drop_cursor_take _ _ _ _ _ hstream (natBits_length _ _))
        (by omega)
        (by
          intro h8
          rw [eob_code.2] at h8
          omega)
      refine ⟨r1, ?_, hinv1, hby1, ?_⟩
      · simp only [inflateItems, hread, except_bind_ok]
        rw [if_pos trivial, hpos, List.take_length,
          if_neg (by omega : ¬ (256:Nat) < 256)]
      · rw [hcur1, eob_code.2]
        simp [tokensBits]
  | cons t ts ih =>
    intro fuel pos r R hvf hfuel hinv hstream
    cases fuel with
    | zero => simp at hfuel
    | succ fuel =>
      rw [List.length_cons] at hfuel
      have hcle := RInv_cursor_le r hinv
      cases t with
      | literal v =>
        obtain ⟨hpos, hvv, hvf'⟩ := hvf
        subst hvv
        have hv256 : data.getD pos 0 < 256 := bytes_getD_lt hb pos
        obtain ⟨hcb, h7le, hle9, _⟩ :=
          fixed_codes_bound (data.getD pos 0) (by omega)
        have hstream' : (bytesBits r.bytes).drop r.cursor
            = natBits (fixedLiteralLengths (data.getD pos 0))
                (fixedLiteralCodes (data.getD pos 0)) ++
              (tokensBits ts ++ (natBits 7 0 ++ R)) := by
          rw [hstream]
          simp only [tokensBits, tokenBits, List.append_assoc]
        have hT := congrArg List.length hstream'
        rw [List.length_drop, bytesBits_length] at hT
        simp only [List.length_append, natBits_length] at hT
        obtain ⟨r1, hread, hinv1, hby1, hcur1⟩ := readFixedLiteral_spec r
          (data.getD pos 0) (by omega) hinv
          (drop_cursor_take _ _ _ _ _ hstream' (natBits_length _ _))
          (by omega)
          (fun _ => by omega)
        have hstream2 : (bytesBits r1.bytes).drop r1.cursor
            = tokensBits ts ++ natBits 7 0 ++ R := by
          rw [hby1, hcur1,
            drop_cursor_step _ _ _ _ _ hstream' (natBits_length _ _),
            List.append_assoc]
        obtain ⟨r', hrec, hinv', hby', hcur'⟩ := ih fuel (pos + 1) r1 R hvf'
          (by omega) hinv1 hstream2
        rw [hby1] at hby' hrec
        refine ⟨r', ?_, hinv', hby', ?_⟩
        · simp only [inflateItems, hread, except_bind_ok]
          rw [if_pos hv256, take_push data pos hpos]
          exact hrec
        · rw [hcur', hcur1,
            show (tokensBits (Token.literal (data.getD pos 0) :: ts)).length
              = fixedLiteralLengths (data.getD pos 0) + (tokensBits ts).length
            from by
              rw [show tokensBits (Token.literal (data.getD pos 0) :: ts)
                  = tokenBits (Token.literal (data.getD pos 0)) ++ tokensBits ts
                from rfl, List.length_append,
                show tokenBits (Token.literal (data.getD pos 0))
                    = natBits (fixedLiteralLengths (data.getD pos 0))
                      (fixedLiteralCodes (data.getD pos 0)) from rfl,
                natBits_length]]
          omega
      | matchTok L D =>
        obtain ⟨hg, hvf'⟩ := hvf
        have hposle : pos ≤ data.length := by
          have := hg.2.1
          omega
        obtain ⟨info, hinfo, hc257, hc285, hbase, hextra, hble, hlb, he5⟩ :=
          findLengthCode_spec L hg.1 hg.2.2.1
        obtain ⟨dinfo, hdinfo, hdc29, hdbase, hdextra, hdble, hdlb, hde13⟩ :=
          findDistanceCode_spec D hg.2.2.2.1 hg.2.2.2.2.1
        obtain ⟨hcb, h7le, hle9, _⟩ := fixed_codes_bound info.code (by omega)
        have hlb2 : L - info.base < 2 ^ info.extraBits := by
          have h := hlb
          rw [Nat.shiftLeft_eq, one_mul] at h
          exact h
        have hdlb2 : D - dinfo.base < 2 ^ dinfo.extraBits := by
          have h := hdlb
          rw [Nat.shiftLeft_eq, one_mul] at h
          exact h
        have hmb : matchBits L D
            = natBits (fixedLiteralLengths info.code) (fixedLiteralCodes info.code) ++
              natBits info.extraBits (L - info.base) ++
              natBits 5 (fixedDistanceCodes dinfo.code) ++
              natBits dinfo.extraBits (D - dinfo.base) := by
          simp only [matchBits, hinfo, hdinfo]
        have hstream' : (bytesBits r.bytes).drop r.cursor
            = natBits (fixedLiteralLengths info.code) (fixedLiteralCodes info.code) ++
              (natBits info.extraBits (L - info.base) ++
                (natBits 5 (fixedDistanceCodes dinfo.code) ++
                  (natBits dinfo.extraBits (D - dinfo.base) ++
                    (tokensBits ts ++ (natBits 7 0 ++ R))))) := by
          rw [hstream]
          simp only [tokensBits, tokenBits, hmb, List.append_assoc]
        have hT := congrArg List.length hstream'
        rw [List.length_drop, bytesBits_length] at hT
        simp only [List.length_append, natBits_length] at hT
        obtain ⟨r1, hread1, hinv1, hby1, hcur1⟩ := readFixedLiteral_spec r
          info.code (by omega) hinv
          (drop_cursor_take _ _ _ _ _ hstream' (natBits_length _ _))
          (by omega)
          (fun _ => by omega)
        have hd1 : (bytesBits r.bytes).drop
            (r.cursor + fixedLiteralLengths info.code)
            = natBits info.extraBits (L - info.base) ++
              (natBits 5 (fixedDistanceCodes dinfo.code) ++
                (natBits dinfo.extraBits (D - dinfo.base) ++
                  (tokensBits ts ++ (natBits 7 0 ++ R)))) :=
          drop_cursor_step _ _ _ _ _ hstream' (natBits_length _ _)
        have hs1 : (bytesBits r1.bytes).drop r1.cursor
            = natBits info.extraBits (L - info.base) ++
              (natBits 5 (fixedDistanceCodes dinfo.code) ++
                (natBits dinfo.extraBits (D - dinfo.base) ++
                  (tokensBits ts ++ (natBits 7 0 ++ R)))) := by
          rw [hby1, hcur1]
          exact hd1
        obtain ⟨r2, hread2, hinv2, hby2, hcur2⟩ := readExtra_bits r1
          info.extraBits (L - info.base) hinv1 (by omega) hlb2
          (drop_cursor_take _ _ _ _ _ hs1 (natBits_length _ _))
          (by rw [hby1, hcur1]; omega)
        have hs2 : (bytesBits r2.bytes).drop r2.cursor
            = natBits 5 (fixedDistanceCodes dinfo.code) ++
              (natBits dinfo.extraBits (D - dinfo.base) ++
                (tokensBits ts ++ (natBits 7 0 ++ R))) := by
          rw [hby2, hcur2]
          exact drop_cursor_step _ _ _ _ _ hs1 (natBits_length _ _)
        obtain ⟨r3, hread3, hinv3, hby3, hcur3⟩ := readFixedDistance_spec r2
          dinfo.code (by omega) hinv2
          (drop_cursor_take _ _ _ _ _ hs2 (natBits_length _ _))
          (by rw [hby2, hby1, hcur2, hcur1]; omega)
        have hs3 : (bytesBits r3.bytes).drop r3.cursor
            = natBits dinfo.extraBits (D - dinfo.base) ++
              (tokensBits ts ++ (natBits 7 0 ++ R)) := by
          rw [hby3, hcur3]
          exact drop_cursor_step _ _ _ _ _ hs2 (natBits_length _ _)
        obtain ⟨r4, hread4, hinv4, hby4, hcur4⟩ := readExtra_bits r3
          dinfo.extraBits (D - dinfo.base) hinv3 (by omega) hdlb2
          (drop_cursor_take _ _ _ _ _ hs3 (natBits_length _ _))
          (by rw [hby3, hby2, hby1, hcur3, hcur2, hcur1]; omega)
        have hs4 : (bytesBits r4.bytes).drop r4.cursor
            = tokensBits ts ++ natBits 7 0 ++ R := by
          rw [hby4, hcur4,
            drop_cursor_step _ _ _ _ _ hs3 (natBits_length _ _),
            List.append_assoc]
        obtain ⟨r', hrec, hinv', hby', hcur'⟩ := ih fuel (pos + L) r4 R hvf'
          (by omega) hinv4 hs4
        rw [hby4, hby3, hby2, hby1] at hby' hrec
        refine ⟨r', ?_, hinv', hby', ?_⟩
        · simp only [inflateItems, hread1, except_bind_ok]
          rw [if_neg (by omega : ¬ info.code < 256),
            if_neg (by omega : ¬ info.code = 256)]
          rw [if_neg (show ¬ info.code - 257 ≥ LENGTH_BASE.length from by
            have h29 : LENGTH_BASE.length = 29 := by rfl
            omega)]
          rw [hbase, hextra]
          simp only [hread2, except_bind_ok]
          rw [show info.base + (L - info.base) = L from by omega]
          simp only [hread3, except_bind_ok]
          rw [hdbase, hdextra]
          simp only [hread4, except_bind_ok]
          rw [show dinfo.base + (D - dinfo.base) = D from by omega]
          rw [List.length_take_of_le hposle]
          rw [if_neg (show ¬ pos < D from by
            have := hg.2.2.2.2.2.1
            omega)]
          rw [matchCopy_take data pos L D hg]
          exact hrec
        · rw [hcur', hcur4, hcur3, hcur2, hcur1,
            show (tokensBits (Token.matchTok L D :: ts)).length
              = fixedLiteralLengths info.code + (info.extraBits +
                  (5 + (dinfo.extraBits + (tokensBits ts).length)))
            from by
              rw [show tokensBits (Token.matchTok L D :: ts)
                  = matchBits L D ++ tokensBits ts from rfl,
                List.length_append, hmb]
              simp only [List.length_append, natBits_length]
              omega]
          omega

/-- Every bounded token encodes to at least 7 bits. -/
theorem tokensBits_length_ge (ts : List Token)
    (h : ∀ t ∈ ts, (∃ v, t = Token.literal v ∧ v < 256) ∨
      ∃ L D, t = Token.matchTok L D ∧ 3 ≤ L ∧ L ≤ 258 ∧ 1 ≤ D ∧ D ≤ 32768) :
    7 * ts.length ≤ (tokensBits ts).length := by
  induction ts with
  | nil => simp [tokensBits]
  | cons t ts ih =>
    have hts := ih (fun u hu => h u (List.mem_cons_of_mem t hu))
    have ht : 7 ≤ (tokenBits t).length := by
      rcases h t (List.mem_cons_self t ts) with ⟨v, rfl, hv⟩ |
        ⟨L, D, rfl, hL1, hL2, hD1, hD2⟩
      · show 7 ≤ (natBits (fixedLiteralLengths v) (fixedLiteralCodes v)).length
        rw [natBits_length]
        exact (fixed_codes_bound v (by omega)).2.1
      · obtain ⟨info, hinfo, hc257, hc285, _⟩ := findLengthCode_spec L hL1 hL2
        obtain ⟨dinfo, hdinfo, _⟩ := findDistanceCode_spec D hD1 hD2
        show 7 ≤ (matchBits L D).length
        rw [show matchBits L D
            = natBits (fixedLiteralLengths info.code) (fixedLiteralCodes info.code) ++
              natBits info.extraBits (L - info.base) ++
              natBits 5 (fixedDistanceCodes dinfo.code) ++
              natBits dinfo.extraBits (D - dinfo.base)
          from by simp only [matchBits, hinfo, hdinfo]]
        simp only [List.length_append, natBits_length]
        have := (fixed_codes_bound info.code (by omega)).2.1
        omega
    rw [tokensBits, List.length_append, List.length_cons]
    omega

/-- Inflating the deflate stream of a byte buffer reproduces the buffer. -/
theorem inflateFixed_deflateFixed (data : List Nat) (hb : Bytes data) :
    ∃ out, deflateFixed data = .ok out ∧ Bytes out ∧
      inflateFixed out = .ok data := by
  obtain ⟨out, hdef, hbout, pad, hpad, hS⟩ := deflateFixed_bits data hb
  refine ⟨out, hdef, hbout, ?_⟩
  have hmem := ValidFrom_mem data hb _ 0 (collectTokens_valid data hb)
  have htl := tokensBits_length_ge (collectTokens data) hmem
  have hT8 : 8 * out.length
      = 1 + (2 + ((tokensBits (collectTokens data)).length + (7 + pad))) := by
    have h := congrArg List.length hS
    rw [bytesBits_length] at h
    simpa [List.length_append, natBits_length, List.length_replicate] using h
  have hS2 : bytesBits out
      = natBits 1 1 ++ (natBits 2 1 ++ (tokensBits (collectTokens data) ++
          (natBits 7 0 ++ List.replicate pad false))) := by
    rw [hS]
    simp [List.append_assoc]
  have hb0 : (BitReader.ofBytes out).bytes = out := rfl
  have hc0 : (BitReader.ofBytes out).cursor = 0 := rfl
  obtain ⟨r1, hr1, hinv1, hby1, hcur1⟩ := readBits_bits (BitReader.ofBytes out) 1
    (RInv_ofBytes out hbout) (by omega) (by rw [hb0, hc0]; omega)
  rw [hb0] at hr1 hby1
  rw [hc0] at hr1 hcur1
  have hv1 : bitsToNat (((bytesBits out).drop 0).take 1) = 1 := by
    rw [List.drop_zero, hS2, List.take_left' (natBits_length 1 1), bitsToNat_natBits]
    norm_num
  obtain ⟨r2, hr2, hinv2, hby2, hcur2⟩ := readBits_bits r1 2 hinv1 (by omega)
    (by rw [hby1, hcur1]; omega)
  rw [hby1] at hr2 hby2
  rw [hcur1] at hr2 hcur2
  have hd1 : (bytesBits out).drop 1
      = natBits 2 1 ++ (tokensBits (collectTokens data) ++
          (natBits 7 0 ++ List.replicate pad false)) := by
    have h := drop_cursor_step (bytesBits out) 0 1 (natBits 1 1) _
      (by rw [List.drop_zero]; exact hS2) (natBits_length _ _)
    simpa using h
  have hv2 : bitsToNat (((bytesBits out).drop (0 + 1)).take 2) = 1 := by
    rw [show (0:Nat) + 1 = 1 from rfl, hd1, List.take_left' (natBits_length 2 1),
      bitsToNat_natBits]
    norm_num
  have hd2 : (bytesBits out).drop 3
      = tokensBits (collectTokens data) ++ natBits 7 0 ++
        List.replicate pad false := by
    have h := drop_cursor_step (bytesBits out) 1 2 (natBits 2 1) _ hd1
      (natBits_length _ _)
    rw [show (1:Nat) + 2 = 3 from rfl] at h
    rw [h, List.append_assoc]
  have hcur2' : r2.cursor = 3 := by omega
  obtain ⟨r', hitems, hinv', hby', hcur'⟩ := inflateItems_decode data hb
    (collectTokens data) (8 * out.length + 8) 0 r2 (List.replicate pad false)
    (collectTokens_valid data hb) (by omega) hinv2
    (by rw [hby2, hcur2']; exact hd2)
  rw [hby2] at hitems hby'
  rw [show data.take 0 = [] from rfl] at hitems
  rw [inflateFixed]
  rw [show 8 * out.length + 8 = (8 * out.length + 7) + 1 from by omega]
  simp only [inflateBlocks, hr1, except_bind_ok]
  rw [hv1]
  simp only [hr2, except_bind_ok]
  rw [hv2]
  rw [if_neg (by omega : ¬ (1:Nat) = 0), if_pos rfl]
  simp only [hitems, except_bind_ok]
  simp

/-! ## The gzip container round-trip -/

/-- A 32-bit read at an offset is a read of the dropped buffer at 0. -/
theorem readUint32LE_drop (bytes : List Nat) (k : Nat) :
    readUint32LE bytes k = readUint32LE (bytes.drop k) 0 := by
  have h : ∀ i, (bytes.drop k).getD i 0 = bytes.getD (k + i) 0 := by
    intro i
    rw [List.getD_eq_getElem?_getD, List.getElem?_drop, List.getD_eq_getElem?_getD]
  unfold readUint32LE
  rw [h 0, h 1, h 2, h 3]
  norm_num

/-- Reading the second word of a two-word footer. -/
theorem readUint32LE_footer2 (c v : Nat) :
    readUint32LE (uint32LEBytes c ++ uint32LEBytes v) 4 = v % 4294967296 := by
  rw [readUint32LE_drop, List.drop_left' (uint32LEBytes_length c),
    ← List.append_nil (uint32LEBytes v), readUint32LE_uint32LEBytes]

/-- Each folding step of the CRC32 table construction stays below 2^32. -/
theorem crcFold_lt (l : List Nat) : ∀ c : Nat, c < 2 ^ 32 →
    l.foldl (fun c _ => if c &&& 1 ≠ 0 then 0xedb88320 ^^^ (c >>> 1) else c >>> 1) c
      < 2 ^ 32 := by
  induction l with
  | nil =>
    intro c hc
    simpa using hc
  | cons a l ih =>
    intro c hc
    rw [List.foldl_cons]
    apply ih
    have hsh : c >>> 1 < 2 ^ 32 := by
      rw [Nat.shiftRight_eq_div_pow]
      have := Nat.div_le_self c (2 ^ 1)
      omega
    split_ifs
    · exact Nat.xor_lt_two_pow (by norm_num) hsh
    · exact hsh

theorem crcTableEntry_lt (i : Nat) (h : i < 2 ^ 32) : crcTableEntry i < 2 ^ 32 :=
  crcFold_lt _ i h

/-- The CRC32 value is a 32-bit word. -/
theorem crc32_lt (data : List Nat) : crc32 data < 2 ^ 32 := by
  rw [crc32]
  have hfold : ∀ (l : List Nat) (c : Nat), c < 2 ^ 32 →
      l.foldl (fun crc byte => crcTableEntry ((crc ^^^ byte) &&& 0xff) ^^^ (crc >>> 8))
        c < 2 ^ 32 := by
    intro l
    induction l with
    | nil =>
      intro c hc
      simpa using hc
    | cons a l ih =>
      intro c hc
      rw [List.foldl_cons]
      apply ih
      apply Nat.xor_lt_two_pow
      · exact crcTableEntry_lt _ (by have := and_255_lt ((c ^^^ a)); omega)
      · rw [Nat.shiftRight_eq_div_pow]
        have := Nat.div_le_self c (2 ^ 8)
        omega
  exact Nat.xor_lt_two_pow (hfold data 0xffffffff (by norm_num)) (by norm_num)

theorem except_dot_bind_ok {α β : Type} (a : α) (f : α → Except String β) :
    (Except.ok a).bind f = f a := rfl

/-- Below 2^31 bytes, compressing then decompressing reproduces the input. -/
theorem gzip_roundtrip_lt (x : List Nat) (hb : Bytes x) (hlen : x.length < 2 ^ 31) :
    ∃ y, gzipCompress x = .ok y ∧ gzipDecompress y = .ok x := by
  obtain ⟨out, hdef, hbout, hinf⟩ := inflateFixed_deflateFixed x hb
  have h232 : (2:Nat) ^ 32 = 4294967296 := by norm_num
  have h231 : (2:Nat) ^ 31 = 2147483648 := by norm_num
  have hy : gzipCompress x = .ok (gzipHeader ++ out ++
      (uint32LEBytes (crc32 x) ++ uint32LEBytes (x.length % 4294967296))) := by
    simp only [gzipCompress, hdef, except_bind_ok]
    rw [List.append_assoc (gzipHeader ++ out)]
  have hshape := gzipDecompress_shape out
    (uint32LEBytes (crc32 x) ++ uint32LEBytes (x.length % 4294967296))
    (by rw [List.length_append, uint32LEBytes_length, uint32LEBytes_length])
  refine ⟨_, hy, ?_⟩
  rw [hshape, hinf, except_dot_bind_ok]
  rw [readUint32LE_uint32LEBytes, Nat.mod_eq_of_lt (by have := crc32_lt x; omega),
    if_neg (by simp : ¬ crc32 x ≠ crc32 x), readUint32LE_footer2]
  have hxlen : x.length % 4294967296 = x.length := Nat.mod_eq_of_lt (by omega)
  rw [hxlen, hxlen]
  have htoi : toInt32 x.length = (x.length : Int) := by
    rw [toInt32, if_pos (by omega : x.length % 4294967296 < 2147483648), hxlen]
  rw [htoi, if_neg (by simp : ¬ ((x.length : Int)) ≠ ((x.length : Int)))]

/-- **C1 (refuted)**: the spec's unconditional round-trip fails.  For the
2^31-byte buffer of zeros, the payload and CRC round-trip, but the size check
compares the unsigned footer word 2^31 against the JavaScript `ToInt32`
reinterpretation of the length (`inflated.length & 0xffffffff`), which is
-2^31, so decompression rejects its own compressor's output with the
size-mismatch error.  (For buffers shorter than 2^31 bytes the round-trip
holds: `gzip_roundtrip_lt`.) -/
theorem gzip_roundtrip_size_bug :
    (gzipCompress (List.replicate (2 ^ 31) 0)).bind gzipDecompress
      = .error "Size mismatch" := by
  have hb : Bytes (List.replicate (2 ^ 31) 0) := by
    intro b hbm
    have := List.eq_of_mem_replicate hbm
    omega
  have hlen : (List.replicate (2 ^ 31) 0 : List Nat).length = 2 ^ 31 :=
    List.length_replicate _ _
  obtain ⟨out, hdef, hbout, hinf⟩ :=
    inflateFixed_deflateFixed (List.replicate (2 ^ 31) 0) hb
  have h232 : (2:Nat) ^ 32 = 4294967296 := by norm_num
  have h231 : (2:Nat) ^ 31 = 2147483648 := by norm_num
  have hy : gzipCompress (List.replicate (2 ^ 31) 0) = .ok (gzipHeader ++ out ++
      (uint32LEBytes (crc32 (List.replicate (2 ^ 31) 0)) ++
        uint32LEBytes ((List.replicate (2 ^ 31) 0 : List Nat).length
          % 4294967296))) := by
    simp only [gzipCompress, hdef, except_bind_ok]
    rw [List.append_assoc (gzipHeader ++ out)]
  have hshape := gzipDecompress_shape out
    (uint32LEBytes (crc32 (List.replicate (2 ^ 31) 0)) ++
      uint32LEBytes ((List.replicate (2 ^ 31) 0 : List Nat).length % 4294967296))
    (by rw [List.length_append, uint32LEBytes_length, uint32LEBytes_length])
  rw [hy, except_dot_bind_ok, hshape, hinf, except_dot_bind_ok]
  rw [readUint32LE_uint32LEBytes,
    Nat.mod_eq_of_lt (by have := crc32_lt (List.replicate (2 ^ 31) 0); omega),
    if_neg (show ¬ crc32 (List.replicate (2 ^ 31) 0)
      ≠ crc32 (List.replicate (2 ^ 31) 0) from fun h => h rfl), readUint32LE_footer2]
  rw [hlen]
  have hmod : (2:Nat) ^ 31 % 4294967296 = 2147483648 := by norm_num
  have htoi : toInt32 (2 ^ 31) = -2147483648 := by
    rw [toInt32, if_neg (by omega : ¬ (2:Nat) ^ 31 % 4294967296 < 2147483648)]
    norm_num
  rw [hmod, htoi, if_pos (by norm_num :
    (-2147483648 : Int) ≠ ((2147483648 % 4294967296 : Nat) : Int))]

end Gzip
